import Mathlib

/-!
# k2k: the per-event pipeline of `k2k.c`

A shallow embedding of the main loop of `k2k.c`: the translate loop
(lines 125-131), the tap/hold loop (lines 133-165), the toggle loop
(lines 167-223) and the final write (lines 225-228).

Conventions of the embedding.
* `int` fields of the rule tables are `Int`. The fields `type` and `code` of
  `struct input_event` are `__u16`: they are `Int` here and every assignment
  of an `int` to `code` goes through `u16` (reduction modulo `2^16`).
* The sink is a list of events: `write_event` appends one event to it. A failed
  `write` ends the process and is not modelled.
* The mutable fields of the rule tables (`act_key`, `keys_down`, `is_down`,
  `ignore_change`) travel with the rule records, as in the C structs.
* The arrays `keys` and `keys_down` of a toggle rule are lists of the same
  length (`TOGGLE_RULE_MAXKEYS`).
-/

namespace K2K

/-! ## Constants of `linux/input-event-codes.h` used by the source -/

abbrev EV_KEY : Int := 1
abbrev EV_MSC : Int := 4
abbrev MSC_SCAN : Int := 4
abbrev KEY_RESERVED : Int := 0
abbrev KEY_LEFTCTRL : Int := 29
abbrev KEY_LEFTSHIFT : Int := 42
abbrev KEY_RIGHTSHIFT : Int := 54
abbrev KEY_LEFTALT : Int := 56
abbrev KEY_RIGHTCTRL : Int := 97
abbrev KEY_RIGHTALT : Int := 100
abbrev KEY_LEFTMETA : Int := 125
abbrev KEY_RIGHTMETA : Int := 126

/-! ## `enum event_values` (lines 23-27) -/

abbrev EVENT_VALUE_KEYUP : Int := 0
abbrev EVENT_VALUE_KEYDOWN : Int := 1
abbrev EVENT_VALUE_KEYREPEAT : Int := 2

/-! ## Events -/

/-- The record `struct input_event`: a time stamp, `__u16 type`, `__u16 code`
and `__s32 value`. -/
structure input_event where
  sec : Int
  usec : Int
  type : Int
  code : Int
  value : Int
deriving DecidableEq, Repr

/-- Conversion of an `int` to `__u16`. -/
def u16 (x : Int) : Int := x % 65536

/-- A key code: a value that fits the 16-bit `code` field of an event. -/
def IsCode (k : Int) : Prop := 0 ≤ k ∧ k < 65536

instance (k : Int) : Decidable (IsCode k) := by unfold IsCode; infer_instance

/-- The event built by `write_key_event(code, value)` (lines 61-69): a zeroed
record with `type = EV_KEY`, the given code (stored in a `__u16`) and value. -/
def write_key_event (code value : Int) : input_event :=
  { sec := 0, usec := 0, type := EV_KEY, code := u16 code, value := value }

/-- The function `key_ismod` (lines 71-82). -/
def key_ismod (keycode : Int) : Bool :=
  if keycode = KEY_LEFTSHIFT ∨ keycode = KEY_RIGHTSHIFT
      ∨ keycode = KEY_LEFTCTRL ∨ keycode = KEY_RIGHTCTRL
      ∨ keycode = KEY_LEFTALT ∨ keycode = KEY_RIGHTALT
      ∨ keycode = KEY_LEFTMETA ∨ keycode = KEY_RIGHTMETA then true
  else false

/-! ## Rule tables (lines 84-108) -/

/-- The record `struct translate_rule_info`. -/
structure translate_rule_info where
  from_key : Int
  to_key : Int
deriving DecidableEq, Repr

/-- The record `struct toggle_rule_info`. `actions.1` is `actions[0]`
(the pair used when turning off), `actions.2` is `actions[1]` (turning on).
`keys_down[j]` is an `int` that only ever receives `0` or `1`. -/
structure toggle_rule_info where
  keys : List Int
  actions : (Int × Int) × (Int × Int)
  ntoggle_down : Nat
  ntoggle_up : Nat
  keys_down : List Nat
  is_down : Bool
  ignore_change : Bool
deriving DecidableEq, Repr

/-- The record `struct tap_rule_info`. -/
structure tap_rule_info where
  tap_key : Int
  hold_key : Int
  act_key : Int
deriving DecidableEq, Repr

/-- The three static tables, with their mutable fields. -/
structure rules where
  TRANSLATE_RULES : List translate_rule_info
  TAP_RULES : List tap_rule_info
  TOGGLE_RULES : List toggle_rule_info
deriving DecidableEq, Repr

/-! ## Translate loop (lines 125-131) -/

/-- Body of the translate loop for one rule (lines 126-130). -/
def translate_rule (ev : input_event) (v : translate_rule_info) : input_event :=
  if ev.code = v.from_key then { ev with code := u16 v.to_key } else ev

/-- The translate loop: the rules are visited in table order and each one
sees the event as the previous ones left it. -/
def translate_loop : List translate_rule_info → input_event → input_event
  | [], ev => ev
  | v :: rest, ev => translate_loop rest (translate_rule ev v)

/-! ## Tap loop (lines 133-165) -/

/-- What one iteration of the tap loop leaves behind: the rule, the event,
the events written, and whether `goto skip_write` was taken. -/
structure tap_result where
  rule : tap_rule_info
  ev : input_event
  out : List input_event
  skip : Bool
deriving DecidableEq, Repr

/-- Body of the tap loop for one rule (lines 134-164). In the `switch`, the
label `case EVENT_VALUE_KEYREPEAT` sits inside the `if` of the key-down case:
a key-repeat jumps to `skip_write`, a key-down does so after claiming an idle
rule, and a key-down on a rule that is not idle breaks out of the switch. -/
def tap_rule (v : tap_rule_info) (ev : input_event) : tap_result :=
  if ev.code = v.tap_key then
    if ev.value = EVENT_VALUE_KEYDOWN then
      if v.act_key = KEY_RESERVED then
        ⟨{ v with act_key := v.tap_key }, ev, [], true⟩
      else ⟨v, ev, [], false⟩
    else if ev.value = EVENT_VALUE_KEYREPEAT then ⟨v, ev, [], true⟩
    else if ev.value = EVENT_VALUE_KEYUP then
      ⟨{ v with act_key := KEY_RESERVED }, { ev with code := u16 v.act_key },
        if v.act_key = v.tap_key then [write_key_event v.act_key EVENT_VALUE_KEYDOWN] else [],
        false⟩
    else ⟨v, ev, [], false⟩
  else if ev.value ≠ EVENT_VALUE_KEYUP ∧ key_ismod ev.code = false then
    if v.act_key = v.tap_key then
      ⟨{ v with act_key := v.hold_key }, ev,
        [write_key_event v.hold_key EVENT_VALUE_KEYDOWN], false⟩
    else ⟨v, ev, [], false⟩
  else ⟨v, ev, [], false⟩

/-- What the tap loop leaves behind: the table, the event, the events
written, and whether the loop was left by `goto skip_write`. -/
structure tap_loop_result where
  rules : List tap_rule_info
  ev : input_event
  out : List input_event
  skip : Bool
deriving DecidableEq, Repr

/-- The tap loop. A `goto skip_write` leaves the loop at once: the rules after
the current one are not visited. -/
def tap_loop : List tap_rule_info → input_event → tap_loop_result
  | [], ev => ⟨[], ev, [], false⟩
  | v :: rest, ev =>
    let r := tap_rule v ev
    if r.skip then ⟨r.rule :: rest, r.ev, r.out, true⟩
    else
      let t := tap_loop rest r.ev
      ⟨r.rule :: t.rules, t.ev, r.out ++ t.out, t.skip⟩

/-! ## Toggle loop (lines 167-223) -/

/-- What the scan of the member keys leaves behind: the array `keys_down`,
the counters `ndown` and `ntotal`, and whether `skip_write` was set. -/
structure scan_result where
  keys_down : List Nat
  ndown : Nat
  ntotal : Nat
  skip : Bool
deriving DecidableEq, Repr

/-- New value of `keys_down[j]` for a slot with key `k` (lines 175-189). -/
def scan_down (ev : input_event) (k : Int) (d : Nat) : Nat :=
  if ev.code = k then
    if ev.value = EVENT_VALUE_KEYUP then 0
    else if ev.value = EVENT_VALUE_KEYDOWN ∨ ev.value = EVENT_VALUE_KEYREPEAT then 1
    else d
  else d

/-- Whether a slot with key `k` sets `skip_write` (lines 179-180, 185-186). -/
def scan_skip (v : toggle_rule_info) (ev : input_event) (k : Int) : Bool :=
  if ev.code = k then
    if ev.value = EVENT_VALUE_KEYUP then
      decide (v.actions.1.1 = ev.code) && v.is_down
    else if ev.value = EVENT_VALUE_KEYDOWN ∨ ev.value = EVENT_VALUE_KEYREPEAT then
      decide (v.actions.2.2 = ev.code) && v.is_down
    else false
  else false

/-- The scan of the member keys (lines 171-191), from slot `j` on: the lists
are `keys[j..]` and `keys_down[j..]`. It stops at the first `KEY_RESERVED`
or at the end of the array. -/
def scan_keys (v : toggle_rule_info) (ev : input_event) :
    List Int → List Nat → scan_result
  | k :: ks, d :: ds =>
    if k = KEY_RESERVED then ⟨d :: ds, 0, 0, false⟩
    else
      let r := scan_keys v ev ks ds
      ⟨scan_down ev k d :: r.keys_down, scan_down ev k d + r.ndown, r.ntotal + 1,
        scan_skip v ev k || r.skip⟩
  | _, ds => ⟨ds, 0, 0, false⟩

/-- What one iteration of the toggle loop leaves behind: the rule, the events
written, and whether the rule set `skip_write`. -/
structure toggle_result where
  rule : toggle_rule_info
  out : List input_event
  skip : Bool
deriving DecidableEq, Repr

/-- The events written at a toggle transition with action pair `keys` when
the feedback filter does not apply (lines 214-218). -/
def toggle_emit (keys : Int × Int) : List input_event :=
  (if keys.1 ≠ KEY_RESERVED then [write_key_event keys.1 EVENT_VALUE_KEYDOWN] else [])
    ++ (if keys.2 ≠ KEY_RESERVED then [write_key_event keys.2 EVENT_VALUE_KEYUP] else [])

/-- Body of the toggle loop for one rule (lines 168-222). -/
def toggle_rule (v : toggle_rule_info) (ev : input_event) : toggle_result :=
  let r := scan_keys v ev v.keys v.keys_down
  let threshold :=
    if v.is_down then (if v.ntoggle_up > 0 then v.ntoggle_up else r.ntotal)
    else (if v.ntoggle_down > 0 then v.ntoggle_down else r.ntotal)
  if v.ignore_change = false ∧ r.ndown = threshold then
    let keys := if v.is_down then v.actions.1 else v.actions.2
    let filtered := (v.keys.take r.ntotal).any
      (fun k => decide (keys.1 = k) || decide (keys.2 = k))
    ⟨{ v with keys_down := r.keys_down, ignore_change := true, is_down := !v.is_down },
      if filtered then [] else toggle_emit keys, r.skip⟩
  else if r.ndown = 0 then
    ⟨{ v with keys_down := r.keys_down, ignore_change := false }, [], r.skip⟩
  else ⟨{ v with keys_down := r.keys_down }, [], r.skip⟩

/-- What the toggle loop leaves behind: the table, the events written, and
the variable `skip_write`. -/
structure toggle_loop_result where
  rules : List toggle_rule_info
  out : List input_event
  skip : Bool
deriving DecidableEq, Repr

/-- The toggle loop: every rule sees the same event. -/
def toggle_loop : List toggle_rule_info → input_event → toggle_loop_result
  | [], _ => ⟨[], [], false⟩
  | v :: rest, ev =>
    let r := toggle_rule v ev
    let t := toggle_loop rest ev
    ⟨r.rule :: t.rules, r.out ++ t.out, r.skip || t.skip⟩

/-! ## The main loop (lines 114-229) -/

/-- One iteration of the main loop on the event `ev`: the tables afterwards
and the events written, in order. -/
def main_body (s : rules) (ev : input_event) : rules × List input_event :=
  if ev.type ≠ EV_KEY then
    if ev.type = EV_MSC ∧ ev.code = MSC_SCAN then (s, [])
    else (s, [ev])
  else
    let ev1 := translate_loop s.TRANSLATE_RULES ev
    let t := tap_loop s.TAP_RULES ev1
    if t.skip then ({ s with TAP_RULES := t.rules }, t.out)
    else
      let g := toggle_loop s.TOGGLE_RULES t.ev
      ({ s with TAP_RULES := t.rules, TOGGLE_RULES := g.rules },
        t.out ++ g.out ++ (if g.skip then [] else [t.ev]))

/-- The main loop over the events delivered by the source, until it ends. -/
def main (s : rules) : List input_event → rules × List input_event
  | [] => (s, [])
  | ev :: evs =>
    let r := main_body s ev
    let q := main r.1 evs
    (q.1, r.2 ++ q.2)

/-! ## Initial state and configured members -/

/-- A toggle rule at start-up: no key marked down, off, not latched. -/
def toggle_initial (v : toggle_rule_info) : Prop :=
  v.keys_down = List.replicate v.keys.length 0 ∧ v.is_down = false
    ∧ v.ignore_change = false

instance (v : toggle_rule_info) : Decidable (toggle_initial v) := by
  unfold toggle_initial; infer_instance

/-- The configured member keys of a toggle rule: the entries of `keys` before
the first `KEY_RESERVED`. -/
def members (v : toggle_rule_info) : List Int :=
  v.keys.takeWhile (fun k => decide (k ≠ KEY_RESERVED))

/-- Number of members marked down: the sum of `keys_down` over the configured
slots. -/
def ndown_of (v : toggle_rule_info) : Nat :=
  (v.keys_down.take (members v).length).sum

/-- The threshold a rule compares its down-count with: `ntoggle_up` when the
rule is on, `ntoggle_down` when it is off, and the number of configured
members when that field is `0`. -/
def effective_threshold (v : toggle_rule_info) : Nat :=
  if v.is_down then (if v.ntoggle_up = 0 then (members v).length else v.ntoggle_up)
  else (if v.ntoggle_down = 0 then (members v).length else v.ntoggle_down)

/-- Both arrays of a toggle rule have the same number of slots. -/
def toggle_wf (v : toggle_rule_info) : Prop := v.keys_down.length = v.keys.length

instance (v : toggle_rule_info) : Decidable (toggle_wf v) := by
  unfold toggle_wf; infer_instance

/-- A toggle rule after the events `es` have reached it, one after the
other. -/
def toggle_run (v : toggle_rule_info) : List input_event → toggle_rule_info
  | [] => v
  | e :: es => toggle_run (toggle_rule v e).rule es

/-- Every event of `es`, reaching the rule in turn, leaves at least one
configured member marked down. -/
def stays_down (v : toggle_rule_info) : List input_event → Bool
  | [] => true
  | e :: es => decide (ndown_of (toggle_rule v e).rule ≠ 0)
      && stays_down (toggle_rule v e).rule es

/-- The invariant behind transitions on presses only: both arrays have the
same number of slots, every flag of `keys_down` is `0` or `1`, and a rule that
is not latched has its down-count strictly below its effective threshold. -/
def below_threshold (v : toggle_rule_info) : Prop :=
  toggle_wf v ∧ (∀ d ∈ v.keys_down, d ≤ 1)
    ∧ (v.ignore_change = false → ndown_of v < effective_threshold v)

/-- What the rules of the tap table write, one list per rule visited, in table
order; no rule is visited after one that jumps to `skip_write`. -/
def tap_writes : List tap_rule_info → input_event → List (List input_event)
  | [], _ => []
  | v :: rest, ev =>
    (tap_rule v ev).out
      :: (if (tap_rule v ev).skip then [] else tap_writes rest (tap_rule v ev).ev)

/-- The eight modifier keys: left and right shift, ctrl, alt and meta. -/
def modifier_keys : List Int :=
  [KEY_LEFTSHIFT, KEY_RIGHTSHIFT, KEY_LEFTCTRL, KEY_RIGHTCTRL,
    KEY_LEFTALT, KEY_RIGHTALT, KEY_LEFTMETA, KEY_RIGHTMETA]

/-! ## Concrete inputs -/

/-- A key-down event with code `c`. -/
def key_down (c : Int) : input_event := ⟨7, 8, EV_KEY, c, EVENT_VALUE_KEYDOWN⟩

/-- A key-up event with code `c`. -/
def key_up (c : Int) : input_event := ⟨9, 8, EV_KEY, c, EVENT_VALUE_KEYUP⟩

/-- A key-repeat event with code `c`. -/
def key_repeat (c : Int) : input_event := ⟨9, 9, EV_KEY, c, EVENT_VALUE_KEYREPEAT⟩

/-- A toggle rule at start-up with the given constant fields. -/
def toggle_start (keys : List Int) (a : (Int × Int) × (Int × Int)) (nd nu : Nat) :
    toggle_rule_info :=
  ⟨keys, a, nd, nu, List.replicate keys.length 0, false, false⟩

/-- A sample configuration: caps-lock translated to escape, space as a
tap key with left shift as its hold key, and a chord of two keys. -/
def sample_rules : rules :=
  ⟨[⟨58, 1⟩], [⟨57, 42, 0⟩], [toggle_start [30, 31, 0, 0] ((0, 70), (70, 0)) 0 0]⟩

/-- A sample chord: keys 30 and 31 together press 70 and release 71. -/
def sample_chord : toggle_rule_info :=
  toggle_start [30, 31, 0, 0] ((71, 70), (70, 71)) 0 0

/-- The rule `sample_chord` once both keys are down: on and latched. -/
def sample_chord_on : toggle_rule_info :=
  ⟨[30, 31, 0, 0], ((71, 70), (70, 71)), 0, 0, [1, 1, 0, 0], true, true⟩

/-- A sample lock key: key 30 is the only member, the press code of the
off-action and the release code of the on-action. -/
def sample_lock : toggle_rule_info :=
  toggle_start [30, 0] ((30, 71), (72, 30)) 0 0

/-- The rule `sample_lock` once key 30 is down: on and latched. -/
def sample_lock_on : toggle_rule_info :=
  ⟨[30, 0], ((30, 71), (72, 30)), 0, 0, [1, 0], true, true⟩

/-- A toggle rule without members: the first slot of `keys` is unused. -/
def sample_bare : toggle_rule_info :=
  toggle_start [0, 0] ((0, 70), (70, 0)) 0 0

/-- A sample configuration around `sample_chord`. -/
def chord_rules : rules :=
  ⟨[⟨58, 1⟩], [⟨57, 42, 0⟩], [sample_chord]⟩

/-! ## Basic facts -/

theorem u16_of_isCode {k : Int} (h : IsCode k) : u16 k = k :=
  Int.emod_eq_of_lt h.1 h.2

/-! ## Translate loop -/

theorem translate_loop_eq_foldl (l : List translate_rule_info) (ev : input_event) :
    translate_loop l ev = l.foldl translate_rule ev := by
  induction l generalizing ev with
  | nil => rfl
  | cons v rest ih => simp [translate_loop, ih]

/-- An event that no rule reads leaves the translate loop as it came. -/
theorem translate_loop_of_no_match (l : List translate_rule_info) (ev : input_event)
    (h : ∀ r ∈ l, r.from_key ≠ ev.code) : translate_loop l ev = ev := by
  induction l generalizing ev with
  | nil => rfl
  | cons v rest ih =>
    have hv : ev.code ≠ v.from_key := fun e => h v (List.mem_cons_self _ _) e.symm
    simp only [translate_loop, translate_rule, if_neg hv]
    exact ih ev (fun r hr => h r (List.mem_cons_of_mem _ hr))

/-- An event whose code every matching rule maps to itself leaves the
translate loop as it came. -/
theorem translate_loop_of_fixed (l : List translate_rule_info) (ev : input_event)
    (h : ∀ r ∈ l, r.from_key = ev.code → u16 r.to_key = ev.code) :
    translate_loop l ev = ev := by
  induction l generalizing ev with
  | nil => rfl
  | cons v rest ih =>
    have hstep : translate_rule ev v = ev := by
      unfold translate_rule
      split
      · next e =>
        have := h v (List.mem_cons_self _ _) e.symm
        rw [this]
      · rfl
    simp only [translate_loop, hstep]
    exact ih ev (fun r hr => h r (List.mem_cons_of_mem _ hr))

/-- Either no rule reads the event, or the code that leaves the loop is the
`to_key` of one of the rules. -/
theorem translate_loop_code (l : List translate_rule_info) (ev : input_event) :
    ((∀ r ∈ l, r.from_key ≠ ev.code) ∧ translate_loop l ev = ev)
      ∨ ∃ r ∈ l, (translate_loop l ev).code = u16 r.to_key := by
  induction l generalizing ev with
  | nil => left; exact ⟨by simp, rfl⟩
  | cons v rest ih =>
    simp only [translate_loop]
    by_cases hv : ev.code = v.from_key
    · right
      have hstep : (translate_rule ev v).code = u16 v.to_key := by
        simp [translate_rule, hv]
      rcases ih (translate_rule ev v) with ⟨_, h2⟩ | ⟨r, hr, h2⟩
      · exact ⟨v, List.mem_cons_self _ _, by rw [h2, hstep]⟩
      · exact ⟨r, List.mem_cons_of_mem _ hr, h2⟩
    · have hstep : translate_rule ev v = ev := by simp [translate_rule, hv]
      rw [hstep]
      rcases ih ev with ⟨h1, h2⟩ | ⟨r, hr, h2⟩
      · left
        refine ⟨?_, h2⟩
        intro r hr
        rcases List.mem_cons.mp hr with rfl | hr
        · exact fun e => hv e.symm
        · exact h1 r hr
      · exact Or.inr ⟨r, List.mem_cons_of_mem _ hr, h2⟩

/-! ## Scan of the member keys -/

theorem takeWhile_members_cons {k : Int} (hk : k ≠ KEY_RESERVED) (ks : List Int) :
    (k :: ks).takeWhile (fun k => decide (k ≠ KEY_RESERVED))
      = k :: ks.takeWhile (fun k => decide (k ≠ KEY_RESERVED)) :=
  List.takeWhile_cons_of_pos (by simpa using hk)

theorem takeWhile_members_reserved (ks : List Int) :
    (KEY_RESERVED :: ks).takeWhile (fun k => decide (k ≠ KEY_RESERVED)) = [] :=
  List.takeWhile_cons_of_neg (by simp)

theorem scan_keys_nil_left (v : toggle_rule_info) (ev : input_event) (ds : List Nat) :
    scan_keys v ev [] ds = ⟨ds, 0, 0, false⟩ := by
  simp [scan_keys]

theorem scan_keys_cons (v : toggle_rule_info) (ev : input_event) (k : Int) (ks : List Int)
    (d : Nat) (ds : List Nat) :
    scan_keys v ev (k :: ks) (d :: ds)
      = if k = KEY_RESERVED then ⟨d :: ds, 0, 0, false⟩
        else ⟨scan_down ev k d :: (scan_keys v ev ks ds).keys_down,
          scan_down ev k d + (scan_keys v ev ks ds).ndown,
          (scan_keys v ev ks ds).ntotal + 1,
          scan_skip v ev k || (scan_keys v ev ks ds).skip⟩ := by
  simp [scan_keys]

/-- The counter `ntotal` ends as the number of configured members. -/
theorem scan_keys_ntotal (v : toggle_rule_info) (ev : input_event) (ks : List Int) :
    ∀ ds : List Nat, ds.length = ks.length →
      (scan_keys v ev ks ds).ntotal
        = (ks.takeWhile (fun k => decide (k ≠ KEY_RESERVED))).length := by
  induction ks with
  | nil => intro ds _; simp [scan_keys_nil_left]
  | cons k ks ih =>
    intro ds hlen
    cases ds with
    | nil => simp at hlen
    | cons d ds =>
      rw [scan_keys_cons]
      by_cases hk : k = KEY_RESERVED
      · simp [hk]
      · simp [hk, ih ds (by simpa using hlen)]

/-- The scan keeps the length of `keys_down`. -/
theorem scan_keys_length (v : toggle_rule_info) (ev : input_event) (ks : List Int) :
    ∀ ds : List Nat, (scan_keys v ev ks ds).keys_down.length = ds.length := by
  induction ks with
  | nil => intro ds; simp [scan_keys_nil_left]
  | cons k ks ih =>
    intro ds
    cases ds with
    | nil => simp [scan_keys]
    | cons d ds =>
      rw [scan_keys_cons]
      by_cases hk : k = KEY_RESERVED
      · simp [hk]
      · simp [hk, ih ds]

/-- The counter `ndown` ends as the sum of the new `keys_down` over the
configured slots. -/
theorem scan_keys_ndown (v : toggle_rule_info) (ev : input_event) (ks : List Int) :
    ∀ ds : List Nat,
      (scan_keys v ev ks ds).ndown
        = ((scan_keys v ev ks ds).keys_down.take (scan_keys v ev ks ds).ntotal).sum := by
  induction ks with
  | nil => intro ds; simp [scan_keys_nil_left]
  | cons k ks ih =>
    intro ds
    cases ds with
    | nil => simp [scan_keys]
    | cons d ds =>
      rw [scan_keys_cons]
      by_cases hk : k = KEY_RESERVED
      · simp [hk]
      · simp [hk, ← ih ds]

/-- A rule that is off never sets `skip_write`. -/
theorem scan_keys_skip_of_off (v : toggle_rule_info) (ev : input_event)
    (hoff : v.is_down = false) (ks : List Int) :
    ∀ ds : List Nat, (scan_keys v ev ks ds).skip = false := by
  induction ks with
  | nil => intro ds; simp [scan_keys_nil_left]
  | cons k ks ih =>
    intro ds
    cases ds with
    | nil => simp [scan_keys]
    | cons d ds =>
      rw [scan_keys_cons]
      by_cases hk : k = KEY_RESERVED
      · simp [hk]
      · have hs : scan_skip v ev k = false := by
          unfold scan_skip; simp [hoff]
        simp [hk, ih ds, hs]

/-- With no key marked down, a key-up, or an event whose code is not a
member, leaves `keys_down` as it was and counts no key down. -/
theorem scan_keys_quiet (v : toggle_rule_info) (ev : input_event) (ks : List Int)
    (h : ev.value = EVENT_VALUE_KEYUP
      ∨ ev.code ∉ ks.takeWhile (fun k => decide (k ≠ KEY_RESERVED))) :
    ∀ n : Nat, (scan_keys v ev ks (List.replicate n 0)).keys_down = List.replicate n 0
      ∧ (scan_keys v ev ks (List.replicate n 0)).ndown = 0 := by
  induction ks with
  | nil => intro n; simp [scan_keys_nil_left]
  | cons k ks ih =>
    intro n
    cases n with
    | zero => simp [scan_keys]
    | succ n =>
      rw [List.replicate_succ, scan_keys_cons]
      by_cases hk : k = KEY_RESERVED
      · simp [hk]
      · have hd : scan_down ev k 0 = 0 := by
          unfold scan_down
          rcases h with h | h
          · simp [h]
          · have : ev.code ≠ k := by
              intro e
              apply h
              rw [takeWhile_members_cons hk, e]
              exact List.mem_cons_self _ _
            simp [this]
        have h2 : ev.value = EVENT_VALUE_KEYUP
            ∨ ev.code ∉ ks.takeWhile (fun k => decide (k ≠ KEY_RESERVED)) := by
          rcases h with h | h
          · exact Or.inl h
          · right
            intro hmem
            apply h
            rw [takeWhile_members_cons hk]
            exact List.mem_cons_of_mem _ hmem
        simp [hk, hd, ih h2 n]

/-! ## Toggle rules that stay quiet -/

/-- A rule at start-up with at least one member does nothing on a key-up and
on an event whose code is not one of its members. -/
theorem toggle_rule_quiet (v : toggle_rule_info) (ev : input_event)
    (hinit : toggle_initial v) (hmem : members v ≠ [])
    (h : ev.value = EVENT_VALUE_KEYUP ∨ ev.code ∉ members v) :
    toggle_rule v ev = ⟨v, [], false⟩ := by
  obtain ⟨hkd, hoff, hign⟩ := hinit
  have hs := scan_keys_quiet v ev v.keys h v.keys.length
  rw [← hkd] at hs
  have hnt := scan_keys_ntotal v ev v.keys v.keys_down (by rw [hkd]; simp)
  have hskip := scan_keys_skip_of_off v ev hoff v.keys v.keys_down
  have hpos : 0 < (members v).length := List.length_pos.mpr hmem
  unfold members at hpos
  have hthr : ¬ (0 = if v.ntoggle_down > 0 then v.ntoggle_down
      else (v.keys.takeWhile (fun k => decide (k ≠ KEY_RESERVED))).length) := by
    split <;> omega
  unfold toggle_rule
  simp only [hs.1, hs.2, hnt, hskip, hoff, hign]
  cases v
  simp_all

/-- A toggle table at start-up in which every rule has a member does nothing
on a key-up and on an event whose code is a member of no rule. -/
theorem toggle_loop_quiet (l : List toggle_rule_info) (ev : input_event)
    (hinit : ∀ v ∈ l, toggle_initial v ∧ members v ≠ [])
    (h : ev.value = EVENT_VALUE_KEYUP ∨ ∀ v ∈ l, ev.code ∉ members v) :
    toggle_loop l ev = ⟨l, [], false⟩ := by
  induction l with
  | nil => rfl
  | cons v rest ih =>
    have hv := hinit v (List.mem_cons_self _ _)
    have h1 : ev.value = EVENT_VALUE_KEYUP ∨ ev.code ∉ members v := by
      rcases h with h | h
      · exact Or.inl h
      · exact Or.inr (h v (List.mem_cons_self _ _))
    have h2 : ev.value = EVENT_VALUE_KEYUP ∨ ∀ v ∈ rest, ev.code ∉ members v := by
      rcases h with h | h
      · exact Or.inl h
      · exact Or.inr (fun w hw => h w (List.mem_cons_of_mem _ hw))
    simp only [toggle_loop, toggle_rule_quiet v ev hv.1 hv.2 h1,
      ih (fun w hw => hinit w (List.mem_cons_of_mem _ hw)) h2]
    simp

/-! ## Tap rules that stay idle, and the main loop around one toggle rule -/

/-- An idle tap table whose tap keys are defined and differ from the code of
the event leaves everything as it was. -/
theorem tap_loop_idle (l : List tap_rule_info) (ev : input_event)
    (h : ∀ t ∈ l, t.act_key = KEY_RESERVED ∧ t.tap_key ≠ KEY_RESERVED
      ∧ t.tap_key ≠ ev.code) :
    tap_loop l ev = ⟨l, ev, [], false⟩ := by
  induction l with
  | nil => rfl
  | cons t rest ih =>
    obtain ⟨h1, h2, h3⟩ := h t (List.mem_cons_self _ _)
    have hr : tap_rule t ev = ⟨t, ev, [], false⟩ := by
      unfold tap_rule
      have h4 : ¬ (KEY_RESERVED = t.tap_key) := fun e => h2 e.symm
      simp [Ne.symm h3, h1, h4]
    simp [tap_loop, hr, ih (fun w hw => h w (List.mem_cons_of_mem _ hw))]

theorem toggle_loop_append (l1 l2 : List toggle_rule_info) (ev : input_event) :
    toggle_loop (l1 ++ l2) ev
      = ⟨(toggle_loop l1 ev).rules ++ (toggle_loop l2 ev).rules,
          (toggle_loop l1 ev).out ++ (toggle_loop l2 ev).out,
          (toggle_loop l1 ev).skip || (toggle_loop l2 ev).skip⟩ := by
  induction l1 with
  | nil => simp [toggle_loop]
  | cons v rest ih => simp [toggle_loop, ih, Bool.or_assoc]

theorem main_append (s : rules) (l1 l2 : List input_event) :
    main s (l1 ++ l2)
      = ((main (main s l1).1 l2).1, (main s l1).2 ++ (main (main s l1).1 l2).2) := by
  induction l1 generalizing s with
  | nil => simp [main]
  | cons e rest ih => simp [main, ih]

/-- One iteration of the main loop on a key event that the translate and tap
tables leave alone and that only the toggle rule `v` reacts to. -/
theorem main_body_one_toggle (tr : List translate_rule_info) (tp : List tap_rule_info)
    (pre post : List toggle_rule_info) (v : toggle_rule_info) (ev : input_event)
    (hty : ev.type = EV_KEY)
    (htr : ∀ r ∈ tr, r.from_key ≠ ev.code)
    (htap : ∀ t ∈ tp, t.act_key = KEY_RESERVED ∧ t.tap_key ≠ KEY_RESERVED
      ∧ t.tap_key ≠ ev.code)
    (hpre : ∀ w ∈ pre, (toggle_initial w ∧ members w ≠ []) ∧ ev.code ∉ members w)
    (hpost : ∀ w ∈ post, (toggle_initial w ∧ members w ≠ []) ∧ ev.code ∉ members w) :
    main_body ⟨tr, tp, pre ++ v :: post⟩ ev
      = (⟨tr, tp, pre ++ (toggle_rule v ev).rule :: post⟩,
          (toggle_rule v ev).out ++ if (toggle_rule v ev).skip then [] else [ev]) := by
  have h1 := toggle_loop_quiet pre ev (fun w hw => (hpre w hw).1)
    (Or.inr (fun w hw => (hpre w hw).2))
  have h2 := toggle_loop_quiet post ev (fun w hw => (hpost w hw).1)
    (Or.inr (fun w hw => (hpost w hw).2))
  unfold main_body
  simp [hty, translate_loop_of_no_match tr ev htr, tap_loop_idle tp ev htap,
    toggle_loop_append, toggle_loop, h1, h2]

/-! ## A chord of two keys -/

/-- Past the configured members the scan does nothing. -/
theorem scan_keys_stop (v : toggle_rule_info) (ev : input_event) (ks : List Int)
    (ds : List Nat) (h : ks.takeWhile (fun k => decide (k ≠ KEY_RESERVED)) = []) :
    scan_keys v ev ks ds = ⟨ds, 0, 0, false⟩ := by
  cases ks with
  | nil => exact scan_keys_nil_left v ev ds
  | cons k ks =>
    have hk : k = KEY_RESERVED := by
      by_contra hk
      rw [takeWhile_members_cons hk] at h
      exact List.cons_ne_nil _ _ h
    cases ds with
    | nil => simp [scan_keys]
    | cons d ds => rw [scan_keys_cons, if_pos hk]

/-- A rule whose members are exactly `A` and `B`: the shape of `keys`. -/
theorem keys_of_members_pair (v : toggle_rule_info) (A B : Int)
    (h : members v = [A, B]) :
    ∃ rest, v.keys = A :: B :: rest
      ∧ rest.takeWhile (fun k => decide (k ≠ KEY_RESERVED)) = []
      ∧ A ≠ KEY_RESERVED ∧ B ≠ KEY_RESERVED := by
  unfold members at h
  cases hks : v.keys with
  | nil => rw [hks] at h; simp at h
  | cons k ks =>
    rw [hks] at h
    by_cases hk : k = KEY_RESERVED
    · rw [hk, takeWhile_members_reserved] at h; simp at h
    · rw [takeWhile_members_cons hk] at h
      injection h with hA h
      subst hA
      cases ks with
      | nil => simp at h
      | cons k2 ks2 =>
        by_cases hk2 : k2 = KEY_RESERVED
        · rw [hk2, takeWhile_members_reserved] at h; simp at h
        · rw [takeWhile_members_cons hk2] at h
          injection h with hB h
          subst hB
          exact ⟨ks2, rfl, h, hk, hk2⟩

/-- The scan of a rule whose members are exactly `A` and `B`. -/
theorem chord_scan (v : toggle_rule_info) (ev : input_event) (A B : Int)
    (rest : List Int) (a b : Nat) (zs : List Nat)
    (hA0 : A ≠ KEY_RESERVED) (hB0 : B ≠ KEY_RESERVED)
    (hrest : rest.takeWhile (fun k => decide (k ≠ KEY_RESERVED)) = []) :
    scan_keys v ev (A :: B :: rest) (a :: b :: zs)
      = ⟨scan_down ev A a :: scan_down ev B b :: zs,
          scan_down ev A a + (scan_down ev B b + 0), 0 + 1 + 1,
          scan_skip v ev A || (scan_skip v ev B || false)⟩ := by
  rw [scan_keys_cons, if_neg hA0, scan_keys_cons, if_neg hB0,
    scan_keys_stop v ev rest zs hrest]

/-- One iteration of the main loop on a key event with code `A` or `B`, in a
configuration whose other rules do not react to `A` and `B`. -/
theorem main_body_chord (tr : List translate_rule_info) (tp : List tap_rule_info)
    (pre post : List toggle_rule_info) (A B : Int)
    (htr : ∀ r ∈ tr, r.from_key ≠ A ∧ r.from_key ≠ B)
    (htap : ∀ t ∈ tp, t.act_key = KEY_RESERVED ∧ t.tap_key ≠ KEY_RESERVED
      ∧ t.tap_key ≠ A ∧ t.tap_key ≠ B)
    (hpre : ∀ w ∈ pre, (toggle_initial w ∧ members w ≠ [])
      ∧ A ∉ members w ∧ B ∉ members w)
    (hpost : ∀ w ∈ post, (toggle_initial w ∧ members w ≠ [])
      ∧ A ∉ members w ∧ B ∉ members w)
    (v : toggle_rule_info) (e : input_event)
    (hty : e.type = EV_KEY) (hc : e.code = A ∨ e.code = B) :
    main_body ⟨tr, tp, pre ++ v :: post⟩ e
      = (⟨tr, tp, pre ++ (toggle_rule v e).rule :: post⟩,
          (toggle_rule v e).out ++ if (toggle_rule v e).skip then [] else [e]) := by
  apply main_body_one_toggle tr tp pre post v e hty
  · intro r hr
    rcases hc with hc | hc <;> rw [hc]
    · exact (htr r hr).1
    · exact (htr r hr).2
  · intro t ht
    obtain ⟨h1, h2, h3, h4⟩ := htap t ht
    rcases hc with hc | hc <;> rw [hc]
    · exact ⟨h1, h2, h3⟩
    · exact ⟨h1, h2, h4⟩
  · intro w hw
    obtain ⟨h1, h2, h3⟩ := hpre w hw
    rcases hc with hc | hc <;> rw [hc]
    · exact ⟨h1, h2⟩
    · exact ⟨h1, h3⟩
  · intro w hw
    obtain ⟨h1, h2, h3⟩ := hpost w hw
    rcases hc with hc | hc <;> rw [hc]
    · exact ⟨h1, h2⟩
    · exact ⟨h1, h3⟩

/-- Once the chord of `A` and `B` is on and latched, with both keys marked
down, key-repeats of `A` and `B` change nothing and are forwarded. -/
theorem chord_repeats (tr : List translate_rule_info) (tp : List tap_rule_info)
    (pre post : List toggle_rule_info) (A B P R : Int) (rest : List Int)
    (off : Int × Int) (zs : List Nat)
    (hA0 : A ≠ KEY_RESERVED) (hB0 : B ≠ KEY_RESERVED)
    (hRA : R ≠ A) (hRB : R ≠ B)
    (hrest : rest.takeWhile (fun k => decide (k ≠ KEY_RESERVED)) = [])
    (htr : ∀ r ∈ tr, r.from_key ≠ A ∧ r.from_key ≠ B)
    (htap : ∀ t ∈ tp, t.act_key = KEY_RESERVED ∧ t.tap_key ≠ KEY_RESERVED
      ∧ t.tap_key ≠ A ∧ t.tap_key ≠ B)
    (hpre : ∀ w ∈ pre, (toggle_initial w ∧ members w ≠ [])
      ∧ A ∉ members w ∧ B ∉ members w)
    (hpost : ∀ w ∈ post, (toggle_initial w ∧ members w ≠ [])
      ∧ A ∉ members w ∧ B ∉ members w)
    (reps : List input_event)
    (hreps : ∀ e ∈ reps, e.type = EV_KEY ∧ e.value = EVENT_VALUE_KEYREPEAT
      ∧ (e.code = A ∨ e.code = B)) :
    main ⟨tr, tp, pre ++ ⟨A :: B :: rest, (off, (P, R)), 0, 0, 1 :: 1 :: zs, true, true⟩
        :: post⟩ reps
      = (⟨tr, tp, pre ++ ⟨A :: B :: rest, (off, (P, R)), 0, 0, 1 :: 1 :: zs, true, true⟩
          :: post⟩, reps) := by
  induction reps with
  | nil => rfl
  | cons e es ih =>
    obtain ⟨hty, hval, hc⟩ := hreps e (List.mem_cons_self _ _)
    have hstep : toggle_rule
        ⟨A :: B :: rest, (off, (P, R)), 0, 0, 1 :: 1 :: zs, true, true⟩ e
        = ⟨⟨A :: B :: rest, (off, (P, R)), 0, 0, 1 :: 1 :: zs, true, true⟩, [], false⟩ := by
      unfold toggle_rule
      rw [chord_scan _ e A B rest 1 1 zs hA0 hB0 hrest]
      rcases hc with hc | hc <;>
        simp [scan_down, scan_skip, hval, hc, hRA, hRB]
    have hb := main_body_chord tr tp pre post A B htr htap hpre hpost
      ⟨A :: B :: rest, (off, (P, R)), 0, 0, 1 :: 1 :: zs, true, true⟩ e hty hc
    rw [hstep] at hb
    simp only [main, hb]
    rw [ih (fun x hx => hreps x (List.mem_cons_of_mem _ hx))]
    simp

/-! ## One toggle rule, one event -/

theorem toggle_rule_keys (v : toggle_rule_info) (ev : input_event) :
    (toggle_rule v ev).rule.keys = v.keys := by
  unfold toggle_rule
  dsimp only
  split_ifs <;> rfl

theorem toggle_rule_keys_down (v : toggle_rule_info) (ev : input_event) :
    (toggle_rule v ev).rule.keys_down = (scan_keys v ev v.keys v.keys_down).keys_down := by
  unfold toggle_rule
  dsimp only
  split_ifs <;> rfl

theorem members_toggle_rule (v : toggle_rule_info) (ev : input_event) :
    members (toggle_rule v ev).rule = members v := by
  unfold members
  rw [toggle_rule_keys]

/-- The arrays keep the same length. -/
theorem toggle_wf_toggle_rule (v : toggle_rule_info) (ev : input_event)
    (hwf : toggle_wf v) : toggle_wf (toggle_rule v ev).rule := by
  unfold toggle_wf at *
  rw [toggle_rule_keys, toggle_rule_keys_down, scan_keys_length, hwf]

/-- The counter `ntotal` of the scan is the number of configured members. -/
theorem scan_ntotal_eq_members (v : toggle_rule_info) (ev : input_event)
    (hwf : toggle_wf v) :
    (scan_keys v ev v.keys v.keys_down).ntotal = (members v).length :=
  scan_keys_ntotal v ev v.keys v.keys_down hwf

/-- The counter `ndown` of the scan is the down-count of the rule after the
event. -/
theorem scan_ndown_eq_ndown_of (v : toggle_rule_info) (ev : input_event)
    (hwf : toggle_wf v) :
    (scan_keys v ev v.keys v.keys_down).ndown = ndown_of (toggle_rule v ev).rule := by
  unfold ndown_of
  rw [members_toggle_rule, toggle_rule_keys_down, ← scan_ntotal_eq_members v ev hwf]
  exact scan_keys_ndown v ev v.keys v.keys_down

/-- The threshold computed in the source is `effective_threshold`. -/
theorem threshold_eq (v : toggle_rule_info) (ev : input_event) (hwf : toggle_wf v) :
    (if v.is_down then
        (if v.ntoggle_up > 0 then v.ntoggle_up
          else (scan_keys v ev v.keys v.keys_down).ntotal)
      else (if v.ntoggle_down > 0 then v.ntoggle_down
          else (scan_keys v ev v.keys v.keys_down).ntotal))
      = effective_threshold v := by
  unfold effective_threshold
  rw [scan_ntotal_eq_members v ev hwf]
  cases v.is_down
  · by_cases h : v.ntoggle_down = 0
    · simp [h]
    · simp [h, Nat.pos_of_ne_zero h]
  · by_cases h : v.ntoggle_up = 0
    · simp [h]
    · simp [h, Nat.pos_of_ne_zero h]

/-- The slots visited by the feedback filter are the configured members. -/
theorem take_ntotal_eq_members (v : toggle_rule_info) (ev : input_event)
    (hwf : toggle_wf v) :
    v.keys.take (scan_keys v ev v.keys v.keys_down).ntotal = members v := by
  rw [scan_ntotal_eq_members v ev hwf]
  unfold members
  exact (List.prefix_iff_eq_take.mp (List.takeWhile_prefix _)).symm

/-- The rule when the transition condition holds. -/
theorem toggle_rule_of_condition (v : toggle_rule_info) (ev : input_event)
    (hwf : toggle_wf v)
    (h : v.ignore_change = false ∧ ndown_of (toggle_rule v ev).rule = effective_threshold v) :
    (toggle_rule v ev).rule.is_down = (!v.is_down)
      ∧ (toggle_rule v ev).rule.ignore_change = true
      ∧ (toggle_rule v ev).out
          = if (members v).any (fun k =>
                decide ((if v.is_down then v.actions.1 else v.actions.2).1 = k)
                  || decide ((if v.is_down then v.actions.1 else v.actions.2).2 = k))
            then [] else toggle_emit (if v.is_down then v.actions.1 else v.actions.2) := by
  rw [← scan_ndown_eq_ndown_of v ev hwf, ← threshold_eq v ev hwf] at h
  have hm := take_ntotal_eq_members v ev hwf
  unfold toggle_rule
  simp only []
  rw [if_pos h, hm]
  exact ⟨rfl, rfl, rfl⟩

/-- The rule when the transition condition fails. -/
theorem toggle_rule_of_not_condition (v : toggle_rule_info) (ev : input_event)
    (hwf : toggle_wf v)
    (h : ¬ (v.ignore_change = false
      ∧ ndown_of (toggle_rule v ev).rule = effective_threshold v)) :
    (toggle_rule v ev).rule.is_down = v.is_down
      ∧ (toggle_rule v ev).out = []
      ∧ (toggle_rule v ev).rule.ignore_change
          = if ndown_of (toggle_rule v ev).rule = 0 then false else v.ignore_change := by
  have hnd := scan_ndown_eq_ndown_of v ev hwf
  rw [← hnd, ← threshold_eq v ev hwf] at h
  rw [← hnd]
  unfold toggle_rule
  simp only []
  rw [if_neg h]
  split
  · exact ⟨rfl, rfl, rfl⟩
  · exact ⟨rfl, rfl, rfl⟩

/-- A latched rule performs no transition, and stays latched unless the event
leaves no configured member marked down. -/
theorem toggle_rule_of_latched (v : toggle_rule_info) (ev : input_event)
    (hwf : toggle_wf v) (hl : v.ignore_change = true) :
    (toggle_rule v ev).rule.is_down = v.is_down
      ∧ (toggle_rule v ev).out = []
      ∧ (ndown_of (toggle_rule v ev).rule ≠ 0 → (toggle_rule v ev).rule.ignore_change = true) := by
  have hc : ¬ (v.ignore_change = false
      ∧ ndown_of (toggle_rule v ev).rule = effective_threshold v) := by
    rw [hl]; simp
  obtain ⟨h1, h2, h3⟩ := toggle_rule_of_not_condition v ev hwf hc
  refine ⟨h1, h2, fun h0 => ?_⟩
  rw [h3, if_neg h0, hl]

/-- A latched rule stays as it is, and latched, through events that each
leave a configured member marked down. -/
theorem toggle_run_of_latched (es : List input_event) :
    ∀ w : toggle_rule_info, toggle_wf w → w.ignore_change = true →
      stays_down w es = true →
      toggle_wf (toggle_run w es) ∧ (toggle_run w es).ignore_change = true
        ∧ (toggle_run w es).is_down = w.is_down := by
  induction es with
  | nil => intro w hwf hl _; exact ⟨hwf, hl, rfl⟩
  | cons e es ih =>
    intro w hwf hl hs
    simp only [stays_down, Bool.and_eq_true, decide_eq_true_eq] at hs
    obtain ⟨h1, _, h3⟩ := toggle_rule_of_latched w e hwf hl
    obtain ⟨i1, i2, i3⟩ := ih (toggle_rule w e).rule (toggle_wf_toggle_rule w e hwf)
      (h3 hs.1) hs.2
    exact ⟨i1, i2, i3.trans h1⟩

/-! ## The toggle table inside the main loop -/

theorem toggle_loop_rules (l : List toggle_rule_info) (ev : input_event) :
    (toggle_loop l ev).rules = l.map (fun v => (toggle_rule v ev).rule) := by
  induction l with
  | nil => rfl
  | cons v rest ih => simp [toggle_loop, ih]

/-- One iteration of the main loop either leaves the toggle table untouched
(the event is not a key event, or the tap loop jumped to `skip_write`) or
hands one and the same event to every toggle rule. -/
theorem main_body_toggle_rules (s : rules) (ev : input_event) :
    (main_body s ev).1.TOGGLE_RULES = s.TOGGLE_RULES
      ∨ ∃ ev1, (main_body s ev).1.TOGGLE_RULES
          = s.TOGGLE_RULES.map (fun v => (toggle_rule v ev1).rule) := by
  unfold main_body
  dsimp only
  split_ifs
  all_goals first
    | exact Or.inl rfl
    | exact Or.inr ⟨_, toggle_loop_rules _ _⟩

/-! ## The tap loop, rule by rule -/

/-- A tap rule rewrites the event only on a key-up of its tap key. -/
theorem tap_rule_ev_of_not_keyup (v : tap_rule_info) (ev : input_event)
    (h : ev.value ≠ EVENT_VALUE_KEYUP) : (tap_rule v ev).ev = ev := by
  unfold tap_rule
  split_ifs <;> rfl

/-- A key-repeat of the tap key: the rule is left as it is and jumps to
`skip_write`. -/
theorem tap_rule_of_repeat (v : tap_rule_info) (ev : input_event)
    (hc : ev.code = v.tap_key) (hv : ev.value = EVENT_VALUE_KEYREPEAT) :
    tap_rule v ev = ⟨v, ev, [], true⟩ := by
  unfold tap_rule
  simp [hc, hv]

/-- A key-down of the tap key on an idle rule: the rule claims the key and
jumps to `skip_write`. -/
theorem tap_rule_of_down_idle (v : tap_rule_info) (ev : input_event)
    (hc : ev.code = v.tap_key) (hv : ev.value = EVENT_VALUE_KEYDOWN)
    (hi : v.act_key = KEY_RESERVED) :
    tap_rule v ev = ⟨{ v with act_key := v.tap_key }, ev, [], true⟩ := by
  unfold tap_rule
  simp [hc, hv, hi]

theorem tap_loop_cons (v : tap_rule_info) (rest : List tap_rule_info) (ev : input_event) :
    tap_loop (v :: rest) ev
      = if (tap_rule v ev).skip then
          ⟨(tap_rule v ev).rule :: rest, (tap_rule v ev).ev, (tap_rule v ev).out, true⟩
        else
          ⟨(tap_rule v ev).rule :: (tap_loop rest (tap_rule v ev).ev).rules,
            (tap_loop rest (tap_rule v ev).ev).ev,
            (tap_rule v ev).out ++ (tap_loop rest (tap_rule v ev).ev).out,
            (tap_loop rest (tap_rule v ev).ev).skip⟩ := by
  simp only [tap_loop]

/-- The tap loop over a table split in two: the second part is visited only
if the first part did not jump to `skip_write`, and sees the event as the
first part left it. -/
theorem tap_loop_append (l1 l2 : List tap_rule_info) (ev : input_event) :
    tap_loop (l1 ++ l2) ev
      = if (tap_loop l1 ev).skip then
          ⟨(tap_loop l1 ev).rules ++ l2, (tap_loop l1 ev).ev, (tap_loop l1 ev).out, true⟩
        else
          ⟨(tap_loop l1 ev).rules ++ (tap_loop l2 (tap_loop l1 ev).ev).rules,
            (tap_loop l2 (tap_loop l1 ev).ev).ev,
            (tap_loop l1 ev).out ++ (tap_loop l2 (tap_loop l1 ev).ev).out,
            (tap_loop l2 (tap_loop l1 ev).ev).skip⟩ := by
  induction l1 generalizing ev with
  | nil => simp [tap_loop]
  | cons v rest ih =>
    rw [List.cons_append, tap_loop_cons, tap_loop_cons]
    by_cases h1 : (tap_rule v ev).skip = true
    · simp [h1]
    · simp only [h1, if_false, Bool.false_eq_true]
      rw [ih]
      by_cases h2 : (tap_loop rest (tap_rule v ev).ev).skip = true
      · simp [h2]
      · simp [h2]

/-- The tap loop on a one-rule table. -/
theorem tap_loop_single (v : tap_rule_info) (ev : input_event) :
    tap_loop [v] ev
      = ⟨[(tap_rule v ev).rule], (tap_rule v ev).ev, (tap_rule v ev).out,
          (tap_rule v ev).skip⟩ := by
  rw [tap_loop_cons]
  simp only [tap_loop]
  by_cases h : (tap_rule v ev).skip = true
  · simp [h]
  · simp [h]

/-- A key-repeat of a tap key of the table, and a key-down of a tap key whose
rule is idle, make the tap loop jump to `skip_write`. -/
theorem tap_loop_skip_of_match (l : List tap_rule_info) (ev : input_event)
    (v : tap_rule_info) (hv : v ∈ l) (hc : ev.code = v.tap_key)
    (h : ev.value = EVENT_VALUE_KEYREPEAT
      ∨ (ev.value = EVENT_VALUE_KEYDOWN ∧ v.act_key = KEY_RESERVED)) :
    (tap_loop l ev).skip = true := by
  have hup : ev.value ≠ EVENT_VALUE_KEYUP := by
    rcases h with h | ⟨h, _⟩ <;> rw [h] <;> decide
  induction l with
  | nil => cases hv
  | cons w rest ih =>
    rw [tap_loop_cons]
    by_cases hs : (tap_rule w ev).skip = true
    · simp [hs]
    · simp only [hs, if_false, Bool.false_eq_true]
      rw [tap_rule_ev_of_not_keyup w ev hup]
      rcases List.mem_cons.mp hv with rfl | hv
      · exfalso
        apply hs
        rcases h with h | ⟨h, hi⟩
        · rw [tap_rule_of_repeat v ev hc h]
        · rw [tap_rule_of_down_idle v ev hc h hi]
      · exact ih hv

/-- Only a key-up is rewritten by the tap loop. -/
theorem tap_loop_ev_of_not_keyup (l : List tap_rule_info) (ev : input_event)
    (h : ev.value ≠ EVENT_VALUE_KEYUP) : (tap_loop l ev).ev = ev := by
  induction l with
  | nil => rfl
  | cons v rest ih =>
    rw [tap_loop_cons]
    have hv := tap_rule_ev_of_not_keyup v ev h
    by_cases hs : (tap_rule v ev).skip = true
    · simp [hs, hv]
    · simp [hs, hv, ih]

/-- Whatever a tap rule writes is a key-down built by `write_key_event`. -/
theorem tap_rule_out_synthetic (v : tap_rule_info) (ev : input_event) :
    ∀ e ∈ (tap_rule v ev).out, ∃ c, e = write_key_event c EVENT_VALUE_KEYDOWN := by
  unfold tap_rule
  split_ifs <;> simp <;> exact ⟨_, rfl⟩

theorem tap_loop_out_synthetic (l : List tap_rule_info) (ev : input_event) :
    ∀ e ∈ (tap_loop l ev).out, ∃ c, e = write_key_event c EVENT_VALUE_KEYDOWN := by
  induction l generalizing ev with
  | nil => simp [tap_loop]
  | cons v rest ih =>
    rw [tap_loop_cons]
    by_cases hs : (tap_rule v ev).skip = true
    · simpa [hs] using tap_rule_out_synthetic v ev
    · intro e he
      simp only [hs, if_false, Bool.false_eq_true, List.mem_append] at he
      rcases he with he | he
      · exact tap_rule_out_synthetic v ev e he
      · exact ih _ e he

theorem tap_loop_rules_length (l : List tap_rule_info) (ev : input_event) :
    (tap_loop l ev).rules.length = l.length := by
  induction l generalizing ev with
  | nil => rfl
  | cons v rest ih =>
    rw [tap_loop_cons]
    by_cases hs : (tap_rule v ev).skip = true
    · simp [hs]
    · simp [hs, ih]

theorem tap_writes_append (l1 l2 : List tap_rule_info) (ev : input_event) :
    tap_writes (l1 ++ l2) ev
      = if (tap_loop l1 ev).skip then tap_writes l1 ev
        else tap_writes l1 ev ++ tap_writes l2 (tap_loop l1 ev).ev := by
  induction l1 generalizing ev with
  | nil => simp [tap_loop, tap_writes]
  | cons v rest ih =>
    rw [List.cons_append, tap_loop_cons]
    simp only [tap_writes]
    by_cases h1 : (tap_rule v ev).skip = true
    · simp [h1]
    · simp only [h1, if_false, Bool.false_eq_true]
      rw [ih]
      by_cases h2 : (tap_loop rest (tap_rule v ev).ev).skip = true
      · simp [h2]
      · simp [h2]

theorem tap_writes_length_le (l : List tap_rule_info) (ev : input_event) :
    (tap_writes l ev).length ≤ l.length := by
  induction l generalizing ev with
  | nil => simp [tap_writes]
  | cons v rest ih =>
    simp only [tap_writes]
    by_cases hs : (tap_rule v ev).skip = true
    · simp [hs]
    · have := ih (tap_rule v ev).ev
      simp [hs]
      omega

theorem tap_writes_length_of_pass (l : List tap_rule_info) (ev : input_event)
    (h : (tap_loop l ev).skip = false) : (tap_writes l ev).length = l.length := by
  induction l generalizing ev with
  | nil => simp [tap_writes]
  | cons v rest ih =>
    rw [tap_loop_cons] at h
    simp only [tap_writes]
    by_cases hs : (tap_rule v ev).skip = true
    · simp [hs] at h
    · simp only [hs, if_false, Bool.false_eq_true] at h
      simp [hs, ih _ h]

/-- An event whose code is the tap key of no rule of the table goes through
the tap loop without a jump to `skip_write` and without being rewritten. -/
theorem tap_loop_of_no_tap_key (l : List tap_rule_info) (ev : input_event)
    (h : ∀ w ∈ l, w.tap_key ≠ ev.code) :
    (tap_loop l ev).skip = false ∧ (tap_loop l ev).ev = ev := by
  induction l with
  | nil => exact ⟨rfl, rfl⟩
  | cons v rest ih =>
    have hne : ¬ ev.code = v.tap_key := fun e => h v (List.mem_cons_self _ _) e.symm
    have hr : (tap_rule v ev).skip = false ∧ (tap_rule v ev).ev = ev := by
      unfold tap_rule
      rw [if_neg hne]
      split_ifs <;> exact ⟨rfl, rfl⟩
    rw [tap_loop_cons]
    simp only [hr.1, hr.2, if_false, Bool.false_eq_true]
    exact ih (fun w hw => h w (List.mem_cons_of_mem _ hw))

/-! ## One iteration of the main loop on a key event -/

theorem main_body_of_tap_skip (s : rules) (ev : input_event) (hty : ev.type = EV_KEY)
    (h : (tap_loop s.TAP_RULES (translate_loop s.TRANSLATE_RULES ev)).skip = true) :
    main_body s ev
      = ({ s with TAP_RULES := (tap_loop s.TAP_RULES
            (translate_loop s.TRANSLATE_RULES ev)).rules },
          (tap_loop s.TAP_RULES (translate_loop s.TRANSLATE_RULES ev)).out) := by
  unfold main_body
  simp [hty, h]

theorem main_body_of_tap_pass (s : rules) (ev : input_event) (hty : ev.type = EV_KEY)
    (h : (tap_loop s.TAP_RULES (translate_loop s.TRANSLATE_RULES ev)).skip = false) :
    main_body s ev
      = ({ s with
            TAP_RULES := (tap_loop s.TAP_RULES (translate_loop s.TRANSLATE_RULES ev)).rules,
            TOGGLE_RULES := (toggle_loop s.TOGGLE_RULES
              (tap_loop s.TAP_RULES (translate_loop s.TRANSLATE_RULES ev)).ev).rules },
          (tap_loop s.TAP_RULES (translate_loop s.TRANSLATE_RULES ev)).out
            ++ (toggle_loop s.TOGGLE_RULES
                (tap_loop s.TAP_RULES (translate_loop s.TRANSLATE_RULES ev)).ev).out
            ++ (if (toggle_loop s.TOGGLE_RULES
                  (tap_loop s.TAP_RULES (translate_loop s.TRANSLATE_RULES ev)).ev).skip
                then [] else [(tap_loop s.TAP_RULES
                  (translate_loop s.TRANSLATE_RULES ev)).ev])) := by
  unfold main_body
  simp [hty, h]

/-! ## The variable `skip_write` in the toggle loop -/

theorem toggle_rule_skip (v : toggle_rule_info) (ev : input_event) :
    (toggle_rule v ev).skip = (scan_keys v ev v.keys v.keys_down).skip := by
  unfold toggle_rule
  dsimp only
  split_ifs <;> rfl

/-- The scan sets `skip_write` only for a rule that is on and an event whose
code is a configured member. -/
theorem scan_keys_skip_imp (v : toggle_rule_info) (ev : input_event) (ks : List Int) :
    ∀ ds : List Nat, (scan_keys v ev ks ds).skip = true →
      v.is_down = true
        ∧ ev.code ∈ ks.takeWhile (fun k => decide (k ≠ KEY_RESERVED)) := by
  induction ks with
  | nil => intro ds h; simp [scan_keys_nil_left] at h
  | cons k ks ih =>
    intro ds h
    cases ds with
    | nil => simp [scan_keys] at h
    | cons d ds =>
      rw [scan_keys_cons] at h
      by_cases hk : k = KEY_RESERVED
      · simp [hk] at h
      · rw [if_neg hk] at h
        simp only [Bool.or_eq_true] at h
        rw [takeWhile_members_cons hk]
        rcases h with h | h
        · unfold scan_skip at h
          by_cases hc : ev.code = k
          · refine ⟨?_, by rw [hc]; exact List.mem_cons_self _ _⟩
            rw [if_pos hc] at h
            split_ifs at h <;> simp_all
          · simp [hc] at h
        · exact ⟨(ih ds h).1, List.mem_cons_of_mem _ (ih ds h).2⟩

/-- The scan sets `skip_write` at the slot of a member whose test succeeds. -/
theorem scan_keys_skip_of_member (v : toggle_rule_info) (ev : input_event)
    (hs : scan_skip v ev ev.code = true) (ks : List Int) :
    ∀ ds : List Nat, ds.length = ks.length →
      ev.code ∈ ks.takeWhile (fun k => decide (k ≠ KEY_RESERVED)) →
      (scan_keys v ev ks ds).skip = true := by
  induction ks with
  | nil => intro ds _ h; simp at h
  | cons k ks ih =>
    intro ds hlen hmem
    cases ds with
    | nil => simp at hlen
    | cons d ds =>
      by_cases hk : k = KEY_RESERVED
      · rw [hk, takeWhile_members_reserved] at hmem
        cases hmem
      · rw [takeWhile_members_cons hk] at hmem
        rw [scan_keys_cons, if_neg hk]
        simp only [Bool.or_eq_true]
        rcases List.mem_cons.mp hmem with h | h
        · left; rw [← h]; exact hs
        · right; exact ih ds (by simpa using hlen) h

/-- The test of lines 179 and 185 for a rule that is on. -/
theorem scan_skip_of_on (v : toggle_rule_info) (ev : input_event)
    (hon : v.is_down = true)
    (h : (ev.value = EVENT_VALUE_KEYUP ∧ ev.code = v.actions.1.1)
      ∨ ((ev.value = EVENT_VALUE_KEYDOWN ∨ ev.value = EVENT_VALUE_KEYREPEAT)
          ∧ ev.code = v.actions.2.2)) :
    scan_skip v ev ev.code = true := by
  unfold scan_skip
  rcases h with ⟨hv, hc⟩ | ⟨hv | hv, hc⟩ <;> simp [hv, hon, hc.symm]

theorem toggle_loop_skip (l : List toggle_rule_info) (ev : input_event) :
    (toggle_loop l ev).skip = l.any (fun v => (toggle_rule v ev).skip) := by
  induction l with
  | nil => rfl
  | cons v rest ih => simp [toggle_loop, ih]

theorem toggle_loop_out (l : List toggle_rule_info) (ev : input_event) :
    (toggle_loop l ev).out = (l.map (fun v => (toggle_rule v ev).out)).flatten := by
  induction l with
  | nil => rfl
  | cons v rest ih => simp [toggle_loop, ih]

/-- Whatever a toggle rule writes is built by `write_key_event`. -/
theorem toggle_rule_out_synthetic (v : toggle_rule_info) (ev : input_event) :
    ∀ e ∈ (toggle_rule v ev).out, ∃ c val, e = write_key_event c val := by
  unfold toggle_rule toggle_emit
  dsimp only
  intro e he
  split_ifs at he <;> simp at he <;> first
    | exact ⟨_, _, he⟩
    | (rcases he with he | he <;> exact ⟨_, _, he⟩)

/-! ## What travels with the event -/

theorem translate_loop_fields (l : List translate_rule_info) (ev : input_event) :
    (translate_loop l ev).sec = ev.sec ∧ (translate_loop l ev).usec = ev.usec
      ∧ (translate_loop l ev).type = ev.type ∧ (translate_loop l ev).value = ev.value := by
  induction l generalizing ev with
  | nil => exact ⟨rfl, rfl, rfl, rfl⟩
  | cons v rest ih =>
    have h : (translate_rule ev v).sec = ev.sec ∧ (translate_rule ev v).usec = ev.usec
        ∧ (translate_rule ev v).type = ev.type ∧ (translate_rule ev v).value = ev.value := by
      unfold translate_rule
      split <;> exact ⟨rfl, rfl, rfl, rfl⟩
    obtain ⟨i1, i2, i3, i4⟩ := ih (translate_rule ev v)
    exact ⟨i1.trans h.1, i2.trans h.2.1, i3.trans h.2.2.1, i4.trans h.2.2.2⟩

theorem tap_rule_fields (v : tap_rule_info) (ev : input_event) :
    (tap_rule v ev).ev.sec = ev.sec ∧ (tap_rule v ev).ev.usec = ev.usec
      ∧ (tap_rule v ev).ev.type = ev.type ∧ (tap_rule v ev).ev.value = ev.value := by
  unfold tap_rule
  split_ifs <;> exact ⟨rfl, rfl, rfl, rfl⟩

theorem tap_loop_fields (l : List tap_rule_info) (ev : input_event) :
    (tap_loop l ev).ev.sec = ev.sec ∧ (tap_loop l ev).ev.usec = ev.usec
      ∧ (tap_loop l ev).ev.type = ev.type ∧ (tap_loop l ev).ev.value = ev.value := by
  induction l generalizing ev with
  | nil => exact ⟨rfl, rfl, rfl, rfl⟩
  | cons v rest ih =>
    rw [tap_loop_cons]
    have h := tap_rule_fields v ev
    by_cases hs : (tap_rule v ev).skip = true
    · simpa [hs] using h
    · simp only [hs, if_false, Bool.false_eq_true]
      obtain ⟨i1, i2, i3, i4⟩ := ih (tap_rule v ev).ev
      exact ⟨i1.trans h.1, i2.trans h.2.1, i3.trans h.2.2.1, i4.trans h.2.2.2⟩

/-- What the tap loop writes is what its rules write, in table order. -/
theorem tap_loop_out_eq_writes (l : List tap_rule_info) (ev : input_event) :
    (tap_loop l ev).out = (tap_writes l ev).flatten := by
  induction l generalizing ev with
  | nil => rfl
  | cons v rest ih =>
    rw [tap_loop_cons]
    by_cases hs : (tap_rule v ev).skip = true
    · simp [hs, tap_writes]
    · simp [hs, tap_writes, ih]

theorem toggle_loop_out_synthetic (l : List toggle_rule_info) (ev : input_event) :
    ∀ e ∈ (toggle_loop l ev).out, ∃ c val, e = write_key_event c val := by
  intro e he
  rw [toggle_loop_out, List.mem_flatten] at he
  obtain ⟨o, ho, heo⟩ := he
  obtain ⟨v, _, rfl⟩ := List.mem_map.mp ho
  exact toggle_rule_out_synthetic v ev e heo

/-- A rule that is on sets `skip_write` on an event whose code is one of its
configured members and passes the test of line 179 or line 185. -/
theorem toggle_rule_skip_of_member (v : toggle_rule_info) (ev : input_event)
    (hwf : toggle_wf v) (hon : v.is_down = true) (hmem : ev.code ∈ members v)
    (h : (ev.value = EVENT_VALUE_KEYUP ∧ ev.code = v.actions.1.1)
      ∨ ((ev.value = EVENT_VALUE_KEYDOWN ∨ ev.value = EVENT_VALUE_KEYREPEAT)
          ∧ ev.code = v.actions.2.2)) :
    (toggle_rule v ev).skip = true := by
  rw [toggle_rule_skip]
  exact scan_keys_skip_of_member v ev (scan_skip_of_on v ev hon h) v.keys v.keys_down
    hwf hmem

/-- One iteration of the main loop when a toggle rule sets `skip_write`: the
event is not forwarded. -/
theorem main_body_of_toggle_skip (s : rules) (ev : input_event) (v : toggle_rule_info)
    (hty : ev.type = EV_KEY)
    (hreach : (tap_loop s.TAP_RULES (translate_loop s.TRANSLATE_RULES ev)).skip = false)
    (hv : v ∈ s.TOGGLE_RULES)
    (hskip : (toggle_rule v
      (tap_loop s.TAP_RULES (translate_loop s.TRANSLATE_RULES ev)).ev).skip = true) :
    (main_body s ev).2
      = (tap_loop s.TAP_RULES (translate_loop s.TRANSLATE_RULES ev)).out
        ++ (toggle_loop s.TOGGLE_RULES
            (tap_loop s.TAP_RULES (translate_loop s.TRANSLATE_RULES ev)).ev).out := by
  have hg : (toggle_loop s.TOGGLE_RULES
      (tap_loop s.TAP_RULES (translate_loop s.TRANSLATE_RULES ev)).ev).skip = true := by
    rw [toggle_loop_skip, List.any_eq_true]
    exact ⟨v, hv, hskip⟩
  rw [main_body_of_tap_pass s ev hty hreach, hg]
  simp

/-! ## Runs of the main loop and the toggle rules -/

theorem toggle_rule_ntoggle_down (v : toggle_rule_info) (ev : input_event) :
    (toggle_rule v ev).rule.ntoggle_down = v.ntoggle_down := by
  unfold toggle_rule
  dsimp only
  split_ifs <;> rfl

theorem toggle_rule_ntoggle_up (v : toggle_rule_info) (ev : input_event) :
    (toggle_rule v ev).rule.ntoggle_up = v.ntoggle_up := by
  unfold toggle_rule
  dsimp only
  split_ifs <;> rfl

theorem members_toggle_run (es : List input_event) :
    ∀ v : toggle_rule_info, members (toggle_run v es) = members v := by
  induction es with
  | nil => intro v; rfl
  | cons e es ih => intro v; simp only [toggle_run]; rw [ih, members_toggle_rule]

theorem toggle_wf_of_initial (v : toggle_rule_info) (h : toggle_initial v) :
    toggle_wf v := by
  unfold toggle_wf
  rw [h.1, List.length_replicate]

theorem ndown_of_initial (v : toggle_rule_info) (h : toggle_initial v) : ndown_of v = 0 := by
  unfold ndown_of
  rw [h.1]
  apply List.sum_eq_zero
  intro x hx
  exact List.eq_of_mem_replicate (List.mem_of_mem_take hx)

/-- The toggle table after a run of the main loop: every rule has seen the
same list of events, those that reached the toggle loop. -/
theorem main_toggle_rules_run (evs : List input_event) :
    ∀ s : rules, ∃ es : List input_event,
      (main s evs).1.TOGGLE_RULES = s.TOGGLE_RULES.map (fun v => toggle_run v es) := by
  induction evs with
  | nil => intro s; exact ⟨[], by simp [main, toggle_run]⟩
  | cons ev evs ih =>
    intro s
    obtain ⟨es, hes⟩ := ih (main_body s ev).1
    simp only [main]
    rw [hes]
    rcases main_body_toggle_rules s ev with h | ⟨ev1, h⟩
    · exact ⟨es, by rw [h]⟩
    · refine ⟨ev1 :: es, ?_⟩
      rw [h, List.map_map]
      rfl

/-- With at least one configured member, the effective threshold is not
zero. -/
theorem effective_threshold_pos (v : toggle_rule_info) (hm : members v ≠ []) :
    0 < effective_threshold v := by
  have hpos : 0 < (members v).length := List.length_pos.mpr hm
  unfold effective_threshold
  split_ifs <;> omega

/-- A rule with at least one configured member is not latched after an event
that leaves no member marked down. -/
theorem toggle_rule_unlatched_of_ndown_zero (v : toggle_rule_info) (ev : input_event)
    (hwf : toggle_wf v) (hm : members v ≠ [])
    (h0 : ndown_of (toggle_rule v ev).rule = 0) :
    (toggle_rule v ev).rule.ignore_change = false := by
  by_cases hcond : v.ignore_change = false
      ∧ ndown_of (toggle_rule v ev).rule = effective_threshold v
  · have := effective_threshold_pos v hm
    omega
  · rw [(toggle_rule_of_not_condition v ev hwf hcond).2.2, if_pos h0]

/-- From start-up, a rule with at least one member is latched only while a
member is marked down. -/
theorem toggle_run_latched (es : List input_event) :
    ∀ v : toggle_rule_info, members v ≠ [] → toggle_wf v →
      (v.ignore_change = true → ndown_of v ≠ 0) →
      toggle_wf (toggle_run v es)
        ∧ ((toggle_run v es).ignore_change = true → ndown_of (toggle_run v es) ≠ 0) := by
  induction es with
  | nil => intro v _ hwf h; exact ⟨hwf, h⟩
  | cons e es ih =>
    intro v hm hwf _
    simp only [toggle_run]
    apply ih _ (by rw [members_toggle_rule]; exact hm) (toggle_wf_toggle_rule v e hwf)
    intro hl h0
    rw [toggle_rule_unlatched_of_ndown_zero v e hwf hm h0] at hl
    cases hl

/-! ## How one event moves the down-count -/

/-- An event whose code is not a configured member leaves `keys_down` and the
down-count as they were. -/
theorem scan_keys_of_not_member (v : toggle_rule_info) (ev : input_event)
    (ks : List Int) :
    ∀ ds : List Nat, ds.length = ks.length →
      ev.code ∉ ks.takeWhile (fun k => decide (k ≠ KEY_RESERVED)) →
      (scan_keys v ev ks ds).keys_down = ds
        ∧ (scan_keys v ev ks ds).ndown
            = (ds.take (ks.takeWhile (fun k => decide (k ≠ KEY_RESERVED))).length).sum := by
  induction ks with
  | nil => intro ds _ _; simp [scan_keys_nil_left]
  | cons k ks ih =>
    intro ds hlen hmem
    cases ds with
    | nil => simp at hlen
    | cons d ds =>
      rw [scan_keys_cons]
      by_cases hk : k = KEY_RESERVED
      · rw [if_pos hk, hk, takeWhile_members_reserved]
        simp
      · rw [if_neg hk]
        rw [takeWhile_members_cons hk] at hmem ⊢
        have hne : ev.code ≠ k := fun e => hmem (e ▸ List.mem_cons_self _ _)
        have hd : scan_down ev k d = d := by simp [scan_down, hne]
        obtain ⟨i1, i2⟩ := ih ds (by simpa using hlen)
          (fun h => hmem (List.mem_cons_of_mem _ h))
        simp [hd, i1, i2]

theorem scan_down_le_one (ev : input_event) (k : Int) (d : Nat) (hd : d ≤ 1) :
    scan_down ev k d ≤ 1 := by
  unfold scan_down
  split_ifs <;> omega

/-- A slot that goes from `0` to `1` does so on a key-down or key-repeat. -/
theorem scan_down_rise (ev : input_event) (k : Int) (d : Nat)
    (h : d < scan_down ev k d) (hd : d ≤ 1) :
    ev.code = k ∧ d = 0
      ∧ (ev.value = EVENT_VALUE_KEYDOWN ∨ ev.value = EVENT_VALUE_KEYREPEAT) := by
  unfold scan_down at h
  split_ifs at h with h1 h2 h3
  · omega
  · exact ⟨h1, by omega, h3⟩
  · omega
  · omega

/-- With pairwise distinct members and flags that are `0` or `1`, one event
raises the down-count by at most one, and it raises it only as a key-down or
key-repeat of a member that was not marked down. -/
theorem scan_keys_rise (v : toggle_rule_info) (ev : input_event) (ks : List Int) :
    ∀ ds : List Nat, ds.length = ks.length →
      (ks.takeWhile (fun k => decide (k ≠ KEY_RESERVED))).Nodup →
      (∀ d ∈ ds, d ≤ 1) →
      (scan_keys v ev ks ds).ndown
          ≤ (ds.take (ks.takeWhile (fun k => decide (k ≠ KEY_RESERVED))).length).sum + 1
        ∧ ((ds.take (ks.takeWhile (fun k => decide (k ≠ KEY_RESERVED))).length).sum
              < (scan_keys v ev ks ds).ndown →
            (ev.value = EVENT_VALUE_KEYDOWN ∨ ev.value = EVENT_VALUE_KEYREPEAT)
              ∧ (ev.code, 0)
                  ∈ (ks.takeWhile (fun k => decide (k ≠ KEY_RESERVED))).zip ds)
        ∧ ∀ d ∈ (scan_keys v ev ks ds).keys_down, d ≤ 1 := by
  induction ks with
  | nil => intro ds _ _ hb; simpa [scan_keys_nil_left] using hb
  | cons k ks ih =>
    intro ds hlen hnd hb
    cases ds with
    | nil => simp at hlen
    | cons d ds =>
      have hd : d ≤ 1 := hb d (List.mem_cons_self _ _)
      have hb2 : ∀ x ∈ ds, x ≤ 1 := fun x hx => hb x (List.mem_cons_of_mem _ hx)
      have hlen2 : ds.length = ks.length := by simpa using hlen
      rw [scan_keys_cons]
      by_cases hk : k = KEY_RESERVED
      · rw [if_pos hk, hk, takeWhile_members_reserved]
        refine ⟨by simp, fun h => by simp at h, hb⟩
      · rw [if_neg hk]
        rw [takeWhile_members_cons hk] at hnd ⊢
        obtain ⟨hknot, hnd2⟩ := List.nodup_cons.mp hnd
        have hsd := scan_down_le_one ev k d hd
        simp only [List.length_cons, List.take_succ_cons, List.sum_cons, List.zip_cons_cons,
          List.mem_cons]
        by_cases hc : ev.code = k
        · obtain ⟨i1, i2⟩ := scan_keys_of_not_member v ev ks ds hlen2 (hc ▸ hknot)
          rw [i1, i2]
          refine ⟨by omega, fun h => ?_, ?_⟩
          · have hr := scan_down_rise ev k d (by omega) hd
            exact ⟨hr.2.2, Or.inl (by rw [hc, hr.2.1])⟩
          · rintro x (rfl | hx)
            · exact hsd
            · exact hb2 x hx
        · have hd2 : scan_down ev k d = d := by simp [scan_down, hc]
          obtain ⟨i1, i2, i3⟩ := ih ds hlen2 hnd2 hb2
          rw [hd2]
          refine ⟨by omega, fun h => ?_, ?_⟩
          · obtain ⟨j1, j2⟩ := i2 (by omega)
            exact ⟨j1, Or.inr j2⟩
          · rintro x (rfl | hx)
            · exact hd
            · exact i3 x hx

/-! ## Transitions happen on presses -/

theorem effective_threshold_toggle_rule (v : toggle_rule_info) (ev : input_event)
    (h : (toggle_rule v ev).rule.is_down = v.is_down) :
    effective_threshold (toggle_rule v ev).rule = effective_threshold v := by
  unfold effective_threshold
  rw [members_toggle_rule, toggle_rule_ntoggle_down, toggle_rule_ntoggle_up, h]

/-- One event on a rule with at least one member and pairwise distinct
members: the invariant is kept, and a transition happens only on a key-down
or key-repeat of a member that was not marked down. -/
theorem toggle_rule_press (v : toggle_rule_info) (ev : input_event)
    (hm : members v ≠ []) (hnd : (members v).Nodup) (hinv : below_threshold v) :
    below_threshold (toggle_rule v ev).rule
      ∧ ((toggle_rule v ev).rule.is_down ≠ v.is_down →
          (ev.value = EVENT_VALUE_KEYDOWN ∨ ev.value = EVENT_VALUE_KEYREPEAT)
            ∧ (ev.code, 0) ∈ (members v).zip v.keys_down) := by
  obtain ⟨hwf, hbits, hlt⟩ := hinv
  obtain ⟨r1, r2, r3⟩ := scan_keys_rise v ev v.keys v.keys_down hwf hnd hbits
  rw [scan_ndown_eq_ndown_of v ev hwf] at r1 r2
  have hold : (v.keys_down.take
      (v.keys.takeWhile (fun k => decide (k ≠ KEY_RESERVED))).length).sum = ndown_of v := rfl
  rw [hold] at r1 r2
  have hbits2 : ∀ d ∈ (toggle_rule v ev).rule.keys_down, d ≤ 1 := by
    rw [toggle_rule_keys_down]; exact r3
  have hwf2 := toggle_wf_toggle_rule v ev hwf
  by_cases hcond : v.ignore_change = false
      ∧ ndown_of (toggle_rule v ev).rule = effective_threshold v
  · obtain ⟨_, c2, _⟩ := toggle_rule_of_condition v ev hwf hcond
    refine ⟨⟨hwf2, hbits2, fun h => ?_⟩, fun _ => ?_⟩
    · rw [c2] at h; cases h
    · have := hlt hcond.1
      exact r2 (by omega)
  · obtain ⟨n1, _, n3⟩ := toggle_rule_of_not_condition v ev hwf hcond
    refine ⟨⟨hwf2, hbits2, fun h => ?_⟩, fun hne => absurd n1 hne⟩
    rw [effective_threshold_toggle_rule v ev n1]
    by_cases h0 : ndown_of (toggle_rule v ev).rule = 0
    · have := effective_threshold_pos v hm
      omega
    · rw [n3, if_neg h0] at h
      have := hlt h
      have hne : ndown_of (toggle_rule v ev).rule ≠ effective_threshold v :=
        fun e => hcond ⟨h, e⟩
      omega

theorem below_threshold_of_initial (v : toggle_rule_info) (hi : toggle_initial v)
    (hm : members v ≠ []) : below_threshold v := by
  refine ⟨toggle_wf_of_initial v hi, ?_, fun _ => ?_⟩
  · rw [hi.1]
    intro d hd
    rw [List.eq_of_mem_replicate hd]
    exact Nat.zero_le _
  · rw [ndown_of_initial v hi]
    exact effective_threshold_pos v hm

theorem below_threshold_toggle_run (es : List input_event) :
    ∀ v : toggle_rule_info, members v ≠ [] → (members v).Nodup → below_threshold v →
      below_threshold (toggle_run v es) := by
  induction es with
  | nil => intro v _ _ h; exact h
  | cons e es ih =>
    intro v hm hnd h
    simp only [toggle_run]
    exact ih _ (by rw [members_toggle_rule]; exact hm)
      (by rw [members_toggle_rule]; exact hnd) (toggle_rule_press v e hm hnd h).1

/-! ## Modifier keys -/

theorem key_ismod_iff (k : Int) : key_ismod k = true ↔ k ∈ modifier_keys := by
  unfold key_ismod modifier_keys
  simp

theorem key_ismod_false_iff (k : Int) : key_ismod k = false ↔ k ∉ modifier_keys := by
  rw [← key_ismod_iff]
  simp

/-! ## Claims -/

/-- C1 (non-key passthrough): for every state of the tables and every event
whose type is not `EV_KEY`, one iteration of the main loop leaves the tables
(with `act_key`, `keys_down`, `is_down`, `ignore_change`) unchanged and writes
exactly the event itself, except for type `EV_MSC` with code `MSC_SCAN`, for
which it writes nothing. -/
theorem non_key_passthrough (s : rules) (ev : input_event) (h : ev.type ≠ EV_KEY) :
    main_body s ev
      = (s, if ev.type = EV_MSC ∧ ev.code = MSC_SCAN then [] else [ev]) := by
  unfold main_body
  rw [if_pos h]
  split <;> rfl

theorem non_key_passthrough_witness :
    (⟨3, 4, 2, 0, -1⟩ : input_event).type ≠ EV_KEY
      ∧ main_body sample_rules ⟨3, 4, 2, 0, -1⟩ = (sample_rules, [⟨3, 4, 2, 0, -1⟩])
      ∧ main_body sample_rules ⟨3, 4, EV_MSC, MSC_SCAN, 57⟩ = (sample_rules, []) :=
  ⟨by decide, non_key_passthrough sample_rules ⟨3, 4, 2, 0, -1⟩ (by decide),
    non_key_passthrough sample_rules ⟨3, 4, EV_MSC, MSC_SCAN, 57⟩ (by decide)⟩

/-- C2 (translate chaining): the translate loop is the left fold of the
one-rule step over the table, each rule reading the code as the earlier rules
left it; and for the table `[(A,B),(B,C)]`, with `B` and `C` key codes, every
event with code `A` leaves the loop with code `C` and is otherwise unchanged.
So the loop is not first-match: when `B` and `C` differ, the code that leaves
is not the `to_key` of the first rule that matched. -/
theorem translate_chaining (A B C : Int) (ev : input_event)
    (hB : IsCode B) (hC : IsCode C) (hA : ev.code = A) :
    (∀ (l : List translate_rule_info) (e : input_event),
        translate_loop l e = l.foldl translate_rule e)
      ∧ translate_loop [⟨A, B⟩, ⟨B, C⟩] ev = { ev with code := C }
      ∧ (B ≠ C → (translate_loop [⟨A, B⟩, ⟨B, C⟩] ev).code ≠ B) := by
  have h : translate_loop [⟨A, B⟩, ⟨B, C⟩] ev = { ev with code := C } := by
    simp [translate_loop, translate_rule, hA, u16_of_isCode hB, u16_of_isCode hC]
  refine ⟨translate_loop_eq_foldl, h, fun hBC => ?_⟩
  rw [h]
  exact fun e => hBC e.symm

theorem translate_chaining_witness :
    IsCode 30 ∧ IsCode 48 ∧ (key_down 58).code = 58
      ∧ translate_loop [⟨58, 30⟩, ⟨30, 48⟩] (key_down 58) = key_down 48 :=
  ⟨by decide, by decide, rfl,
    (translate_chaining 58 30 48 (key_down 58) (by decide) (by decide) rfl).2.1⟩

/-- C3, as stated, fails: in the table `[(5,7),(1,65541)]` no `to_key` equals
the `from_key` of a different rule, yet a key-down of 1 leaves the translate
loop with code 5 (`65541` stored into the 16-bit code) and leaves a second
pass with code 7. -/
theorem translate_idempotent_counterexample :
    (∀ r ∈ [(⟨5, 7⟩ : translate_rule_info), ⟨1, 65541⟩],
        ∀ q ∈ [(⟨5, 7⟩ : translate_rule_info), ⟨1, 65541⟩], r ≠ q → r.to_key ≠ q.from_key)
      ∧ translate_loop [⟨5, 7⟩, ⟨1, 65541⟩] (key_down 1) = key_down 5
      ∧ translate_loop [⟨5, 7⟩, ⟨1, 65541⟩]
          (translate_loop [⟨5, 7⟩, ⟨1, 65541⟩] (key_down 1)) = key_down 7
      ∧ translate_loop [⟨5, 7⟩, ⟨1, 65541⟩]
          (translate_loop [⟨5, 7⟩, ⟨1, 65541⟩] (key_down 1))
        ≠ translate_loop [⟨5, 7⟩, ⟨1, 65541⟩] (key_down 1) := by
  decide

/-- C3, amended (translate idempotence under disjoint rules): for every
translate table in which no rule has a `to_key` that, stored into the 16-bit
code of the event, equals the `from_key` of a different rule, running the
translate loop on what the translate loop returned changes nothing. -/
theorem translate_idempotent (l : List translate_rule_info) (ev : input_event)
    (hdisj : ∀ r ∈ l, ∀ q ∈ l, r ≠ q → u16 r.to_key ≠ q.from_key) :
    translate_loop l (translate_loop l ev) = translate_loop l ev := by
  rcases translate_loop_code l ev with ⟨h1, h2⟩ | ⟨r, hr, h2⟩
  · rw [h2, h2]
  · apply translate_loop_of_fixed
    intro q hq hfrom
    rw [h2] at hfrom ⊢
    by_cases hrq : r = q
    · rw [hrq]
    · exact absurd hfrom.symm (hdisj r hr q hq hrq)

theorem translate_idempotent_witness :
    translate_loop [⟨58, 1⟩, ⟨100, 56⟩, ⟨3, 3⟩]
        (translate_loop [⟨58, 1⟩, ⟨100, 56⟩, ⟨3, 3⟩] (key_down 58))
      = key_down 1 :=
  (translate_idempotent [⟨58, 1⟩, ⟨100, 56⟩, ⟨3, 3⟩] (key_down 58) (by decide)).trans
    (by decide)

/-- C4 (tap resolution): with `(T,H)` the only tap rule, `T` the code of the
incoming events (a key code), no translate rule reading `T`, and every toggle
rule at start-up with at least one member, a key-down of `T` writes nothing, the key-down followed by the key-up of `T`
writes exactly a key-down with code `T` and then the key-up with code `T`,
and the tap rule ends with `act_key = KEY_RESERVED`. -/
theorem tap_resolution (T H : Int) (s : rules) (e1 e2 : input_event)
    (hT : IsCode T)
    (htap : s.TAP_RULES = [⟨T, H, KEY_RESERVED⟩])
    (htr : ∀ r ∈ s.TRANSLATE_RULES, r.from_key ≠ T)
    (htog : ∀ v ∈ s.TOGGLE_RULES, toggle_initial v ∧ members v ≠ [])
    (h1 : e1.type = EV_KEY ∧ e1.code = T ∧ e1.value = EVENT_VALUE_KEYDOWN)
    (h2 : e2.type = EV_KEY ∧ e2.code = T ∧ e2.value = EVENT_VALUE_KEYUP) :
    (main_body s e1).2 = []
      ∧ (main s [e1, e2]).2 = [⟨0, 0, EV_KEY, T, EVENT_VALUE_KEYDOWN⟩, e2]
      ∧ (main s [e1, e2]).1.TAP_RULES = [⟨T, H, KEY_RESERVED⟩] := by
  obtain ⟨tr, tp, tg⟩ := s
  obtain ⟨sec1, usec1, ty1, c1, val1⟩ := e1
  obtain ⟨sec2, usec2, ty2, c2, val2⟩ := e2
  simp only at htap htr htog h1 h2
  obtain ⟨rfl, h1c, rfl⟩ := h1
  obtain ⟨rfl, h2c, rfl⟩ := h2
  subst c1 c2 htap
  have ht : ∀ e : input_event, e.code = T → translate_loop tr e = e :=
    fun e he => translate_loop_of_no_match tr e (fun r hr => he ▸ htr r hr)
  have hb1 : main_body ⟨tr, [⟨T, H, KEY_RESERVED⟩], tg⟩
      ⟨sec1, usec1, EV_KEY, T, EVENT_VALUE_KEYDOWN⟩
      = (⟨tr, [⟨T, H, T⟩], tg⟩, []) := by
    unfold main_body
    simp [ht, tap_loop, tap_rule]
  have hg : toggle_loop tg ⟨sec2, usec2, EV_KEY, T, EVENT_VALUE_KEYUP⟩ = ⟨tg, [], false⟩ :=
    toggle_loop_quiet tg _ htog (Or.inl rfl)
  have hb2 : main_body ⟨tr, [⟨T, H, T⟩], tg⟩ ⟨sec2, usec2, EV_KEY, T, EVENT_VALUE_KEYUP⟩
      = (⟨tr, [⟨T, H, KEY_RESERVED⟩], tg⟩,
          [⟨0, 0, EV_KEY, T, EVENT_VALUE_KEYDOWN⟩, ⟨sec2, usec2, EV_KEY, T, EVENT_VALUE_KEYUP⟩]) := by
    unfold main_body
    simp [ht, tap_loop, tap_rule, hg, write_key_event, u16_of_isCode hT]
  refine ⟨by rw [hb1], ?_, ?_⟩
  · simp [main, hb1, hb2]
  · simp [main, hb1, hb2]

theorem tap_resolution_witness :
    IsCode 57
      ∧ (main sample_rules [key_down 57, key_up 57]).2
          = [⟨0, 0, EV_KEY, 57, EVENT_VALUE_KEYDOWN⟩, key_up 57] :=
  ⟨by decide,
    (tap_resolution 57 42 sample_rules (key_down 57) (key_up 57) (by decide) rfl
      (by decide) (by decide) (by decide) (by decide)).2.1⟩

/-- C5 (hold resolution): with `(T,H)` the only tap rule, `T` and `H`
distinct, `H` a key code, `X` a non-modifier key other than `T`, no translate rule reading `T`
or `X`, and every toggle rule at start-up with at least one member and without
`X` among its members: key-down `T`, key-down `X`, key-up `T` write exactly a
key-down of `H` (while the key-down of `X` is processed, before it), the
key-down of `X` unchanged, and the key-up with its code rewritten to `H`. -/
theorem hold_resolution (T H X : Int) (s : rules) (e1 e2 e3 : input_event)
    (hH : IsCode H) (hTH : T ≠ H) (hXT : X ≠ T) (hX : key_ismod X = false)
    (htap : s.TAP_RULES = [⟨T, H, KEY_RESERVED⟩])
    (htr : ∀ r ∈ s.TRANSLATE_RULES, r.from_key ≠ T ∧ r.from_key ≠ X)
    (htog : ∀ v ∈ s.TOGGLE_RULES, toggle_initial v ∧ members v ≠ [] ∧ X ∉ members v)
    (h1 : e1.type = EV_KEY ∧ e1.code = T ∧ e1.value = EVENT_VALUE_KEYDOWN)
    (h2 : e2.type = EV_KEY ∧ e2.code = X ∧ e2.value = EVENT_VALUE_KEYDOWN)
    (h3 : e3.type = EV_KEY ∧ e3.code = T ∧ e3.value = EVENT_VALUE_KEYUP) :
    (main_body s e1).2 = []
      ∧ (main s [e1, e2]).2 = [⟨0, 0, EV_KEY, H, EVENT_VALUE_KEYDOWN⟩, e2]
      ∧ (main s [e1, e2, e3]).2
          = [⟨0, 0, EV_KEY, H, EVENT_VALUE_KEYDOWN⟩, e2, { e3 with code := H }] := by
  obtain ⟨tr, tp, tg⟩ := s
  obtain ⟨sec1, usec1, ty1, c1, val1⟩ := e1
  obtain ⟨sec2, usec2, ty2, c2, val2⟩ := e2
  obtain ⟨sec3, usec3, ty3, c3, val3⟩ := e3
  simp only at htap htr htog h1 h2 h3
  obtain ⟨rfl, h1c, rfl⟩ := h1
  obtain ⟨rfl, h2c, rfl⟩ := h2
  obtain ⟨rfl, h3c, rfl⟩ := h3
  subst c1 c2 c3 htap
  have htT : ∀ e : input_event, e.code = T → translate_loop tr e = e :=
    fun e he => translate_loop_of_no_match tr e (fun r hr => he ▸ (htr r hr).1)
  have htX : ∀ e : input_event, e.code = X → translate_loop tr e = e :=
    fun e he => translate_loop_of_no_match tr e (fun r hr => he ▸ (htr r hr).2)
  have hq : ∀ v ∈ tg, toggle_initial v ∧ members v ≠ [] :=
    fun v hv => ⟨(htog v hv).1, (htog v hv).2.1⟩
  have hb1 : main_body ⟨tr, [⟨T, H, KEY_RESERVED⟩], tg⟩
      ⟨sec1, usec1, EV_KEY, T, EVENT_VALUE_KEYDOWN⟩
      = (⟨tr, [⟨T, H, T⟩], tg⟩, []) := by
    unfold main_body
    simp [htT, tap_loop, tap_rule]
  have hg2 : toggle_loop tg ⟨sec2, usec2, EV_KEY, X, EVENT_VALUE_KEYDOWN⟩ = ⟨tg, [], false⟩ :=
    toggle_loop_quiet tg _ hq (Or.inr (fun v hv => (htog v hv).2.2))
  have hb2 : main_body ⟨tr, [⟨T, H, T⟩], tg⟩ ⟨sec2, usec2, EV_KEY, X, EVENT_VALUE_KEYDOWN⟩
      = (⟨tr, [⟨T, H, H⟩], tg⟩,
          [⟨0, 0, EV_KEY, H, EVENT_VALUE_KEYDOWN⟩,
            ⟨sec2, usec2, EV_KEY, X, EVENT_VALUE_KEYDOWN⟩]) := by
    unfold main_body
    simp [htX, tap_loop, tap_rule, hg2, write_key_event, u16_of_isCode hH, hXT, hX]
  have hg3 : toggle_loop tg ⟨sec3, usec3, EV_KEY, H, EVENT_VALUE_KEYUP⟩ = ⟨tg, [], false⟩ :=
    toggle_loop_quiet tg _ hq (Or.inl rfl)
  have hb3 : main_body ⟨tr, [⟨T, H, H⟩], tg⟩ ⟨sec3, usec3, EV_KEY, T, EVENT_VALUE_KEYUP⟩
      = (⟨tr, [⟨T, H, KEY_RESERVED⟩], tg⟩, [⟨sec3, usec3, EV_KEY, H, EVENT_VALUE_KEYUP⟩]) := by
    unfold main_body
    simp [htT, tap_loop, tap_rule, hg3, u16_of_isCode hH, Ne.symm hTH]
  refine ⟨by rw [hb1], ?_, ?_⟩
  · simp [main, hb1, hb2]
  · simp [main, hb1, hb2, hb3]

theorem hold_resolution_witness :
    IsCode 42
      ∧ (main sample_rules [key_down 57, key_down 33, key_up 57]).2
          = [⟨0, 0, EV_KEY, 42, EVENT_VALUE_KEYDOWN⟩, key_down 33, key_up 42] :=
  ⟨by decide,
    (hold_resolution 57 42 33 sample_rules (key_down 57) (key_down 33) (key_up 57)
      (by decide) (by decide) (by decide) (by decide) rfl (by decide) (by decide)
      (by decide) (by decide) (by decide)).2.2⟩

/-- C6 (promotion condition): for a tap rule with `act_key = tap_key`,
`tap_key` different from `hold_key` and `hold_key` a key code, and a key-down
or key-repeat whose code is not `tap_key`, the rule is promoted (`act_key`
becomes `hold_key` and exactly one event is written, the key-down with code
`hold_key`) if and only if the code is not one of the eight modifier keys; for
a modifier code `act_key` stays `tap_key` and the rule writes nothing. In both
cases the event goes on unchanged. -/
theorem promotion_condition (v : tap_rule_info) (ev : input_event)
    (hwait : v.act_key = v.tap_key) (hth : v.tap_key ≠ v.hold_key)
    (hH : IsCode v.hold_key)
    (hval : ev.value = EVENT_VALUE_KEYDOWN ∨ ev.value = EVENT_VALUE_KEYREPEAT)
    (hcode : ev.code ≠ v.tap_key) :
    (((tap_rule v ev).rule.act_key = v.hold_key
          ∧ (tap_rule v ev).out = [⟨0, 0, EV_KEY, v.hold_key, EVENT_VALUE_KEYDOWN⟩])
        ↔ ev.code ∉ modifier_keys)
      ∧ (ev.code ∈ modifier_keys →
          (tap_rule v ev).rule.act_key = v.tap_key ∧ (tap_rule v ev).out = [])
      ∧ (tap_rule v ev).ev = ev ∧ (tap_rule v ev).skip = false := by
  have hup : ev.value ≠ EVENT_VALUE_KEYUP := by
    rcases hval with h | h <;> rw [h] <;> decide
  by_cases hm : ev.code ∈ modifier_keys
  · have hk : key_ismod ev.code = true := (key_ismod_iff _).mpr hm
    have hr : tap_rule v ev = ⟨v, ev, [], false⟩ := by
      unfold tap_rule
      simp [hcode, hk]
    rw [hr]
    simp [hm, hwait, hth]
  · have hk : key_ismod ev.code = false := (key_ismod_false_iff _).mpr hm
    have hr : tap_rule v ev
        = ⟨{ v with act_key := v.hold_key }, ev,
            [⟨0, 0, EV_KEY, v.hold_key, EVENT_VALUE_KEYDOWN⟩], false⟩ := by
      unfold tap_rule
      simp [hcode, hk, hup, hwait, write_key_event, u16_of_isCode hH]
    rw [hr]
    simp [hm]

theorem promotion_condition_witness :
    ((tap_rule ⟨57, 42, 57⟩ (key_down 33)).rule.act_key = 42
        ∧ (tap_rule ⟨57, 42, 57⟩ (key_down 33)).out
            = [⟨0, 0, EV_KEY, 42, EVENT_VALUE_KEYDOWN⟩])
      ∧ (tap_rule ⟨57, 42, 57⟩ (key_repeat 29)).rule.act_key = 57
      ∧ (tap_rule ⟨57, 42, 57⟩ (key_repeat 29)).out = [] :=
  ⟨(promotion_condition ⟨57, 42, 57⟩ (key_down 33) rfl (by decide) (by decide)
      (by decide) (by decide)).1.mpr (by decide),
    (promotion_condition ⟨57, 42, 57⟩ (key_repeat 29) rfl (by decide) (by decide)
      (by decide) (by decide)).2.1 (by decide)⟩

/-- C7, as stated, fails: next to the chord `sample_chord` (members 30 and 31,
thresholds `0`, on-action `(70,71)`) stands a toggle rule without members,
whose keys and actions name neither 30 nor 31; from start-up the first press,
of key 30, makes that rule write a key-down of 80 before the press is
forwarded. -/
theorem toggle_all_down_counterexample :
    toggle_initial sample_chord ∧ members sample_chord = [30, 31]
      ∧ sample_chord.ntoggle_down = 0 ∧ sample_chord.ntoggle_up = 0
      ∧ sample_chord.actions.2 = (70, 71)
      ∧ toggle_initial (toggle_start [0, 0] ((0, 80), (80, 0)) 0 0)
      ∧ members (toggle_start [0, 0] ((0, 80), (80, 0)) 0 0) = []
      ∧ (main_body ⟨[], [], [toggle_start [0, 0] ((0, 80), (80, 0)) 0 0, sample_chord]⟩
          (key_down 30)).2
        = [⟨0, 0, EV_KEY, 80, EVENT_VALUE_KEYDOWN⟩, key_down 30]
      ∧ (main_body ⟨[], [], [toggle_start [0, 0] ((0, 80), (80, 0)) 0 0, sample_chord]⟩
          (key_down 30)).2
        ≠ [key_down 30] := by
  decide

/-- C7, amended (toggle all-down threshold): one toggle rule at start-up with
exactly the two members `A` and `B`, both thresholds `0` and on-action `(P,R)`,
`P` and `R` defined key codes different from `A` and `B`; no translate rule
reads `A` or `B`, every tap rule is idle on a defined tap key (not
`KEY_RESERVED`) other than `A` and `B`, and every other toggle rule is at
start-up with at least one member and without `A` and `B`. Then the first
press, of `A` or of `B`, writes only the press itself; the second press writes
the key-down with code `P`, the key-up with code `R` and then the press; and
any key-repeats of `A` or `B` that follow are forwarded with nothing else
written. -/
theorem toggle_all_down (A B P R : Int) (s : rules) (pre post : List toggle_rule_info)
    (v : toggle_rule_info) (eA eB : input_event) (reps : List input_event)
    (hAB : A ≠ B) (hP : P ≠ KEY_RESERVED) (hR : R ≠ KEY_RESERVED)
    (hPc : IsCode P) (hRc : IsCode R)
    (hPA : P ≠ A) (hPB : P ≠ B) (hRA : R ≠ A) (hRB : R ≠ B)
    (hv : toggle_initial v ∧ members v = [A, B] ∧ v.ntoggle_down = 0
      ∧ v.ntoggle_up = 0 ∧ v.actions.2 = (P, R))
    (htog : s.TOGGLE_RULES = pre ++ v :: post)
    (hpre : ∀ w ∈ pre, (toggle_initial w ∧ members w ≠ [])
      ∧ A ∉ members w ∧ B ∉ members w)
    (hpost : ∀ w ∈ post, (toggle_initial w ∧ members w ≠ [])
      ∧ A ∉ members w ∧ B ∉ members w)
    (htap : ∀ t ∈ s.TAP_RULES, t.act_key = KEY_RESERVED ∧ t.tap_key ≠ KEY_RESERVED
      ∧ t.tap_key ≠ A ∧ t.tap_key ≠ B)
    (htr : ∀ r ∈ s.TRANSLATE_RULES, r.from_key ≠ A ∧ r.from_key ≠ B)
    (hA : eA.type = EV_KEY ∧ eA.code = A ∧ eA.value = EVENT_VALUE_KEYDOWN)
    (hB : eB.type = EV_KEY ∧ eB.code = B ∧ eB.value = EVENT_VALUE_KEYDOWN)
    (hreps : ∀ e ∈ reps, e.type = EV_KEY ∧ e.value = EVENT_VALUE_KEYREPEAT
      ∧ (e.code = A ∨ e.code = B)) :
    (main_body s eA).2 = [eA] ∧ (main_body s eB).2 = [eB]
      ∧ (main s (eA :: eB :: reps)).2
          = [eA, ⟨0, 0, EV_KEY, P, EVENT_VALUE_KEYDOWN⟩,
              ⟨0, 0, EV_KEY, R, EVENT_VALUE_KEYUP⟩, eB] ++ reps
      ∧ (main s (eB :: eA :: reps)).2
          = [eB, ⟨0, 0, EV_KEY, P, EVENT_VALUE_KEYDOWN⟩,
              ⟨0, 0, EV_KEY, R, EVENT_VALUE_KEYUP⟩, eA] ++ reps := by
  have hwP : (⟨0, 0, EV_KEY, P, EVENT_VALUE_KEYDOWN⟩ : input_event)
      = write_key_event P EVENT_VALUE_KEYDOWN := by
    simp [write_key_event, u16_of_isCode hPc]
  have hwR : (⟨0, 0, EV_KEY, R, EVENT_VALUE_KEYUP⟩ : input_event)
      = write_key_event R EVENT_VALUE_KEYUP := by
    simp [write_key_event, u16_of_isCode hRc]
  rw [hwP, hwR]
  obtain ⟨tr, tp, tg⟩ := s
  obtain ⟨hinit, hmem, hnd, hnu, hact⟩ := hv
  obtain ⟨rest, hkeys, hrest, hA0, hB0⟩ := keys_of_members_pair v A B hmem
  obtain ⟨keys, ⟨off, act1⟩, nd, nu, kd, dn, ig⟩ := v
  obtain ⟨secA, usecA, tyA, cA, valA⟩ := eA
  obtain ⟨secB, usecB, tyB, cB, valB⟩ := eB
  unfold toggle_initial at hinit
  simp only at htog htap htr hkeys hnd hnu hact hinit hA hB
  obtain ⟨hkd, rfl, rfl⟩ := hinit
  obtain ⟨rfl, hcA, rfl⟩ := hA
  obtain ⟨rfl, hcB, rfl⟩ := hB
  subst cA cB htog hkeys hnd hnu hact
  simp only [List.length_cons, List.replicate_succ] at hkd
  subst hkd
  have hbody := main_body_chord tr tp pre post A B htr htap hpre hpost
  have hBA : B ≠ A := Ne.symm hAB
  -- the four presses, on the rule alone
  have r0A : toggle_rule
      ⟨A :: B :: rest, (off, (P, R)), 0, 0, 0 :: 0 :: List.replicate rest.length 0,
        false, false⟩ ⟨secA, usecA, EV_KEY, A, EVENT_VALUE_KEYDOWN⟩
      = ⟨⟨A :: B :: rest, (off, (P, R)), 0, 0, 1 :: 0 :: List.replicate rest.length 0,
          false, false⟩, [], false⟩ := by
    unfold toggle_rule
    rw [chord_scan _ _ A B rest 0 0 _ hA0 hB0 hrest]
    simp [scan_down, scan_skip, hAB]
  have r0B : toggle_rule
      ⟨A :: B :: rest, (off, (P, R)), 0, 0, 0 :: 0 :: List.replicate rest.length 0,
        false, false⟩ ⟨secB, usecB, EV_KEY, B, EVENT_VALUE_KEYDOWN⟩
      = ⟨⟨A :: B :: rest, (off, (P, R)), 0, 0, 0 :: 1 :: List.replicate rest.length 0,
          false, false⟩, [], false⟩ := by
    unfold toggle_rule
    rw [chord_scan _ _ A B rest 0 0 _ hA0 hB0 hrest]
    simp [scan_down, scan_skip, hBA]
  have r1B : toggle_rule
      ⟨A :: B :: rest, (off, (P, R)), 0, 0, 1 :: 0 :: List.replicate rest.length 0,
        false, false⟩ ⟨secB, usecB, EV_KEY, B, EVENT_VALUE_KEYDOWN⟩
      = ⟨⟨A :: B :: rest, (off, (P, R)), 0, 0, 1 :: 1 :: List.replicate rest.length 0,
          true, true⟩,
          [write_key_event P EVENT_VALUE_KEYDOWN, write_key_event R EVENT_VALUE_KEYUP],
          false⟩ := by
    unfold toggle_rule
    rw [chord_scan _ _ A B rest 1 0 _ hA0 hB0 hrest]
    simp [scan_down, scan_skip, hBA, toggle_emit, hP, hR, hPA, hPB, hRA, hRB]
  have r1A : toggle_rule
      ⟨A :: B :: rest, (off, (P, R)), 0, 0, 0 :: 1 :: List.replicate rest.length 0,
        false, false⟩ ⟨secA, usecA, EV_KEY, A, EVENT_VALUE_KEYDOWN⟩
      = ⟨⟨A :: B :: rest, (off, (P, R)), 0, 0, 1 :: 1 :: List.replicate rest.length 0,
          true, true⟩,
          [write_key_event P EVENT_VALUE_KEYDOWN, write_key_event R EVENT_VALUE_KEYUP],
          false⟩ := by
    unfold toggle_rule
    rw [chord_scan _ _ A B rest 0 1 _ hA0 hB0 hrest]
    simp [scan_down, scan_skip, hAB, toggle_emit, hP, hR, hPA, hPB, hRA, hRB]
  -- the same presses, in the main loop
  have b0A := hbody ⟨A :: B :: rest, (off, (P, R)), 0, 0, 0 :: 0 :: List.replicate rest.length 0,
      false, false⟩
    ⟨secA, usecA, EV_KEY, A, EVENT_VALUE_KEYDOWN⟩ rfl (Or.inl rfl)
  rw [r0A] at b0A
  have b0B := hbody ⟨A :: B :: rest, (off, (P, R)), 0, 0, 0 :: 0 :: List.replicate rest.length 0,
      false, false⟩
    ⟨secB, usecB, EV_KEY, B, EVENT_VALUE_KEYDOWN⟩ rfl (Or.inr rfl)
  rw [r0B] at b0B
  have b1B := hbody ⟨A :: B :: rest, (off, (P, R)), 0, 0, 1 :: 0 :: List.replicate rest.length 0,
      false, false⟩
    ⟨secB, usecB, EV_KEY, B, EVENT_VALUE_KEYDOWN⟩ rfl (Or.inr rfl)
  rw [r1B] at b1B
  have b1A := hbody ⟨A :: B :: rest, (off, (P, R)), 0, 0, 0 :: 1 :: List.replicate rest.length 0,
      false, false⟩
    ⟨secA, usecA, EV_KEY, A, EVENT_VALUE_KEYDOWN⟩ rfl (Or.inl rfl)
  rw [r1A] at b1A
  have hrep := chord_repeats tr tp pre post A B P R rest off
    (List.replicate rest.length 0) hA0 hB0 hRA hRB hrest htr htap hpre hpost reps hreps
  refine ⟨by rw [b0A]; rfl, by rw [b0B]; rfl, ?_, ?_⟩
  · simp only [main, b0A, b1B, hrep]
    simp
  · simp only [main, b0B, b1A, hrep]
    simp

theorem toggle_all_down_witness :
    (main chord_rules [key_down 30, key_down 31, key_repeat 30, key_repeat 31]).2
        = [key_down 30, ⟨0, 0, EV_KEY, 70, EVENT_VALUE_KEYDOWN⟩,
            ⟨0, 0, EV_KEY, 71, EVENT_VALUE_KEYUP⟩, key_down 31, key_repeat 30, key_repeat 31]
      ∧ (main chord_rules [key_down 31, key_down 30, key_repeat 30, key_repeat 31]).2
        = [key_down 31, ⟨0, 0, EV_KEY, 70, EVENT_VALUE_KEYDOWN⟩,
            ⟨0, 0, EV_KEY, 71, EVENT_VALUE_KEYUP⟩, key_down 30, key_repeat 30, key_repeat 31] :=
  (toggle_all_down 30 31 70 71 chord_rules [] [] sample_chord (key_down 30) (key_down 31)
    [key_repeat 30, key_repeat 31] (by decide) (by decide) (by decide) (by decide)
    (by decide) (by decide) (by decide) (by decide) (by decide) (by decide) rfl
    (by decide) (by decide) (by decide) (by decide) (by decide) (by decide) (by decide)).2.2

/-- C8 (latch, no retrigger): for every toggle rule, once an event has made
the rule perform a transition (`is_down` changed), the events that reach the
rule afterwards cause no further transition, `is_down` stays as the transition
left it and the rule writes nothing, as long as every earlier event since the
transition left at least one configured member marked down. -/
theorem latch_no_retrigger (v : toggle_rule_info) (e0 : input_event)
    (es : List input_event) (e : input_event) (hwf : toggle_wf v)
    (htrans : (toggle_rule v e0).rule.is_down ≠ v.is_down)
    (hheld : stays_down (toggle_rule v e0).rule es = true) :
    (toggle_run (toggle_rule v e0).rule es).is_down = (toggle_rule v e0).rule.is_down
      ∧ (toggle_rule (toggle_run (toggle_rule v e0).rule es) e).rule.is_down
          = (toggle_rule v e0).rule.is_down
      ∧ (toggle_rule (toggle_run (toggle_rule v e0).rule es) e).out = [] := by
  have hl : (toggle_rule v e0).rule.ignore_change = true := by
    by_contra hc
    by_cases hcond : v.ignore_change = false
        ∧ ndown_of (toggle_rule v e0).rule = effective_threshold v
    · exact hc (toggle_rule_of_condition v e0 hwf hcond).2.1
    · exact htrans (toggle_rule_of_not_condition v e0 hwf hcond).1
  obtain ⟨i1, i2, i3⟩ := toggle_run_of_latched es (toggle_rule v e0).rule
    (toggle_wf_toggle_rule v e0 hwf) hl hheld
  obtain ⟨h1, h2, _⟩ := toggle_rule_of_latched _ e i1 i2
  exact ⟨i3, h1.trans i3, h2⟩

theorem latch_no_retrigger_witness :
    (toggle_rule (toggle_rule sample_chord (key_down 30)).rule (key_down 31)).rule.is_down
        = true
      ∧ (toggle_rule
          (toggle_run (toggle_rule (toggle_rule sample_chord (key_down 30)).rule
            (key_down 31)).rule [key_up 30]) (key_down 30)).rule.is_down = true
      ∧ (toggle_rule
          (toggle_run (toggle_rule (toggle_rule sample_chord (key_down 30)).rule
            (key_down 31)).rule [key_up 30]) (key_down 30)).out = [] :=
  ⟨by decide,
    ((latch_no_retrigger (toggle_rule sample_chord (key_down 30)).rule (key_down 31)
      [key_up 30] (key_down 30) (by decide) (by decide) (by decide)).2.1).trans (by decide),
    (latch_no_retrigger (toggle_rule sample_chord (key_down 30)).rule (key_down 31)
      [key_up 30] (key_down 30) (by decide) (by decide) (by decide)).2.2⟩

/-- C9 (toggle transition condition): for every toggle rule and every key
event that reaches it, the rule performs a transition (`is_down` changes) if
and only if `ignore_change` was false before the event and the down-count
after the event equals the effective threshold (`ntoggle_down` when off,
`ntoggle_up` when on, `0` standing for the number of configured members); a
transition flips `is_down` and sets `ignore_change`, and without a transition
`is_down` is unchanged. -/
theorem toggle_transition_condition (v : toggle_rule_info) (ev : input_event)
    (hwf : toggle_wf v) :
    ((toggle_rule v ev).rule.is_down ≠ v.is_down
        ↔ (v.ignore_change = false
            ∧ ndown_of (toggle_rule v ev).rule = effective_threshold v))
      ∧ ((v.ignore_change = false
            ∧ ndown_of (toggle_rule v ev).rule = effective_threshold v) →
          (toggle_rule v ev).rule.is_down = (!v.is_down)
            ∧ (toggle_rule v ev).rule.ignore_change = true)
      ∧ (¬ (v.ignore_change = false
            ∧ ndown_of (toggle_rule v ev).rule = effective_threshold v) →
          (toggle_rule v ev).rule.is_down = v.is_down) := by
  have hpos := fun h => toggle_rule_of_condition v ev hwf h
  have hneg := fun h => toggle_rule_of_not_condition v ev hwf h
  refine ⟨⟨fun hne => ?_, fun h => ?_⟩, fun h => ⟨(hpos h).1, (hpos h).2.1⟩,
    fun h => (hneg h).1⟩
  · by_contra hc
    exact hne (hneg hc).1
  · rw [(hpos h).1]
    cases v.is_down <;> decide

theorem toggle_transition_condition_witness :
    toggle_wf (toggle_rule sample_chord (key_down 30)).rule
      ∧ (toggle_rule (toggle_rule sample_chord (key_down 30)).rule (key_down 31)).rule.is_down
          ≠ (toggle_rule sample_chord (key_down 30)).rule.is_down :=
  ⟨by decide,
    (toggle_transition_condition (toggle_rule sample_chord (key_down 30)).rule
      (key_down 31) (by decide)).1.mpr (by decide)⟩

/-- C10 (toggle emission and feedback filter): on every toggle transition,
with `(press, release)` the action pair of the new state (`actions[1]` when
turning on, `actions[0]` when turning off), `is_down` is flipped and
`ignore_change` set; the rule writes nothing if `press` or `release` is one of
its configured member keys, and otherwise, `press` and `release` being key
codes, it writes the key-down with code `press` if `press` is defined, then
the key-up with code `release` if `release` is defined, and nothing else. -/
theorem toggle_emission (v : toggle_rule_info) (ev : input_event) (press release : Int)
    (hwf : toggle_wf v)
    (htrans : (toggle_rule v ev).rule.is_down ≠ v.is_down)
    (hpair : (press, release) = if v.is_down then v.actions.1 else v.actions.2) :
    (toggle_rule v ev).rule.is_down = (!v.is_down)
      ∧ (toggle_rule v ev).rule.ignore_change = true
      ∧ ((press ∈ members v ∨ release ∈ members v) → (toggle_rule v ev).out = [])
      ∧ (¬ (press ∈ members v ∨ release ∈ members v) → IsCode press → IsCode release →
          (toggle_rule v ev).out
            = (if press ≠ KEY_RESERVED then [⟨0, 0, EV_KEY, press, EVENT_VALUE_KEYDOWN⟩]
                else [])
              ++ (if release ≠ KEY_RESERVED then [⟨0, 0, EV_KEY, release, EVENT_VALUE_KEYUP⟩]
                else [])) := by
  have hcond : v.ignore_change = false
      ∧ ndown_of (toggle_rule v ev).rule = effective_threshold v := by
    by_contra hc
    exact htrans (toggle_rule_of_not_condition v ev hwf hc).1
  obtain ⟨h1, h2, h3⟩ := toggle_rule_of_condition v ev hwf hcond
  rw [← hpair] at h3
  have hany : ((members v).any (fun k => decide (press = k) || decide (release = k))) = true
      ↔ (press ∈ members v ∨ release ∈ members v) := by
    simp only [List.any_eq_true, Bool.or_eq_true, decide_eq_true_eq]
    constructor
    · rintro ⟨k, hk, rfl | rfl⟩
      · exact Or.inl hk
      · exact Or.inr hk
    · rintro (h | h)
      · exact ⟨press, h, Or.inl rfl⟩
      · exact ⟨release, h, Or.inr rfl⟩
  refine ⟨h1, h2, fun hm => ?_, fun hm hp hr => ?_⟩
  · rw [h3, if_pos (hany.mpr hm)]
  · rw [h3, if_neg (fun h => hm (hany.mp h))]
    simp only [toggle_emit, write_key_event, u16_of_isCode hp, u16_of_isCode hr]

theorem toggle_emission_witness :
    (toggle_rule (toggle_rule sample_chord (key_down 30)).rule (key_down 31)).out
      = [⟨0, 0, EV_KEY, 70, EVENT_VALUE_KEYDOWN⟩, ⟨0, 0, EV_KEY, 71, EVENT_VALUE_KEYUP⟩] :=
  ((toggle_emission (toggle_rule sample_chord (key_down 30)).rule (key_down 31) 70 71
    (by decide) (by decide) (by decide)).2.2.2 (by decide) (by decide) (by decide)).trans
    (by decide)

/-- C15 (tap-suppressed events never reach the toggle loop): on a key event,
whenever the tap loop jumps to `skip_write`, the toggle table is left as it
was and the only events written are those the tap loop wrote (key-downs built
by `write_key_event`): no toggle rule writes and the event is not forwarded.
The tap loop does jump on a key-repeat of the tap key of any rule of the table
and on a key-down of the tap key of a rule that is idle. -/
theorem tap_suppressed_skips_toggle (s : rules) (ev : input_event)
    (hty : ev.type = EV_KEY) :
    ((tap_loop s.TAP_RULES (translate_loop s.TRANSLATE_RULES ev)).skip = true →
        (main_body s ev).1.TOGGLE_RULES = s.TOGGLE_RULES
          ∧ (main_body s ev).2
              = (tap_loop s.TAP_RULES (translate_loop s.TRANSLATE_RULES ev)).out
          ∧ ∀ e ∈ (main_body s ev).2, ∃ c, e = write_key_event c EVENT_VALUE_KEYDOWN)
      ∧ (∀ v ∈ s.TAP_RULES,
          (translate_loop s.TRANSLATE_RULES ev).code = v.tap_key →
          ((translate_loop s.TRANSLATE_RULES ev).value = EVENT_VALUE_KEYREPEAT
            ∨ ((translate_loop s.TRANSLATE_RULES ev).value = EVENT_VALUE_KEYDOWN
                ∧ v.act_key = KEY_RESERVED)) →
          (tap_loop s.TAP_RULES (translate_loop s.TRANSLATE_RULES ev)).skip = true) := by
  refine ⟨fun h => ?_, fun v hv hc hval => tap_loop_skip_of_match _ _ v hv hc hval⟩
  rw [main_body_of_tap_skip s ev hty h]
  exact ⟨rfl, rfl, tap_loop_out_synthetic _ _⟩

theorem tap_suppressed_skips_toggle_witness :
    (main_body chord_rules (key_down 57)).1.TOGGLE_RULES = [sample_chord]
      ∧ (main_body chord_rules (key_down 57)).2 = [] :=
  ⟨((tap_suppressed_skips_toggle chord_rules (key_down 57) rfl).1 (by decide)).1,
    ((tap_suppressed_skips_toggle chord_rules (key_down 57) rfl).1 (by decide)).2.1.trans
      (by decide)⟩

/-- C19 (key-repeat of a tap key is swallowed): a key-repeat whose code, after
translation, is the tap key of the rule `v`, and which reaches `v` (no earlier
rule of the table jumps to `skip_write`), leaves `v` as it is whatever its
`act_key`, makes `v` write nothing, and is not written to the sink: the toggle
table is untouched and the only events written are those of the earlier tap
rules. -/
theorem repeat_of_tap_key_swallowed (s : rules) (ev : input_event)
    (pre post : List tap_rule_info) (v : tap_rule_info)
    (hty : ev.type = EV_KEY)
    (htap : s.TAP_RULES = pre ++ v :: post)
    (hc : (translate_loop s.TRANSLATE_RULES ev).code = v.tap_key)
    (hv : (translate_loop s.TRANSLATE_RULES ev).value = EVENT_VALUE_KEYREPEAT)
    (hreach : (tap_loop pre (translate_loop s.TRANSLATE_RULES ev)).skip = false) :
    (tap_rule v (translate_loop s.TRANSLATE_RULES ev)).rule = v
      ∧ (tap_rule v (translate_loop s.TRANSLATE_RULES ev)).out = []
      ∧ (main_body s ev).1.TAP_RULES
          = (tap_loop pre (translate_loop s.TRANSLATE_RULES ev)).rules ++ v :: post
      ∧ (main_body s ev).1.TOGGLE_RULES = s.TOGGLE_RULES
      ∧ (main_body s ev).2 = (tap_loop pre (translate_loop s.TRANSLATE_RULES ev)).out := by
  have hup : (translate_loop s.TRANSLATE_RULES ev).value ≠ EVENT_VALUE_KEYUP := by
    rw [hv]; decide
  have hr := tap_rule_of_repeat v _ hc hv
  have hpre := tap_loop_ev_of_not_keyup pre _ hup
  have hloop : tap_loop s.TAP_RULES (translate_loop s.TRANSLATE_RULES ev)
      = ⟨(tap_loop pre (translate_loop s.TRANSLATE_RULES ev)).rules ++ v :: post,
          translate_loop s.TRANSLATE_RULES ev,
          (tap_loop pre (translate_loop s.TRANSLATE_RULES ev)).out, true⟩ := by
    rw [htap, tap_loop_append, hreach, hpre, tap_loop_cons, hr]
    simp
  have hb := main_body_of_tap_skip s ev hty (by rw [hloop])
  rw [hloop] at hb
  rw [hb, hr]
  exact ⟨rfl, rfl, rfl, rfl, rfl⟩

theorem repeat_of_tap_key_swallowed_witness :
    (main_body ⟨[], [⟨57, 42, 42⟩], []⟩ (key_repeat 57)).1.TAP_RULES = [⟨57, 42, 42⟩]
      ∧ (main_body ⟨[], [⟨57, 42, 42⟩], []⟩ (key_repeat 57)).2 = [] :=
  ⟨(repeat_of_tap_key_swallowed ⟨[], [⟨57, 42, 42⟩], []⟩ (key_repeat 57) [] []
      ⟨57, 42, 42⟩ rfl rfl rfl rfl rfl).2.2.1,
    (repeat_of_tap_key_swallowed ⟨[], [⟨57, 42, 42⟩], []⟩ (key_repeat 57) [] []
      ⟨57, 42, 42⟩ rfl rfl rfl rfl rfl).2.2.2.2⟩

/-- C20 (orphan key-up): a key-up of the tap key of a rule that is idle
(`act_key = KEY_RESERVED`, the tap key being a defined key) makes the rule
write nothing, leaves it idle, and rewrites the code of the event to
`KEY_RESERVED`; with this rule the only tap rule, no translate rule reading
the key and the toggle rules at start-up with at least one member each, the
one event written is the key-up with code `0`, and the tables are left as
they were. -/
theorem orphan_key_up (v : tap_rule_info) (ev : input_event)
    (hT : v.tap_key ≠ KEY_RESERVED) (hidle : v.act_key = KEY_RESERVED)
    (hc : ev.code = v.tap_key) (hv : ev.value = EVENT_VALUE_KEYUP) :
    tap_rule v ev = ⟨v, { ev with code := KEY_RESERVED }, [], false⟩
      ∧ ∀ s : rules, ev.type = EV_KEY → s.TAP_RULES = [v] →
          (∀ r ∈ s.TRANSLATE_RULES, r.from_key ≠ ev.code) →
          (∀ w ∈ s.TOGGLE_RULES, toggle_initial w ∧ members w ≠ []) →
          main_body s ev = (s, [{ ev with code := KEY_RESERVED }]) := by
  have hr : tap_rule v ev = ⟨v, { ev with code := KEY_RESERVED }, [], false⟩ := by
    obtain ⟨t, h, a⟩ := v
    simp only at hT hidle hc
    subst hidle
    unfold tap_rule
    simp [hc, hv, u16, Ne.symm hT]
  refine ⟨hr, fun s hty htap htr htog => ?_⟩
  obtain ⟨tr, tp, tg⟩ := s
  simp only at htap htr htog
  subst htap
  have hg : toggle_loop tg { ev with code := KEY_RESERVED } = ⟨tg, [], false⟩ :=
    toggle_loop_quiet tg _ htog (Or.inl hv)
  have ht : tap_loop [v] (translate_loop tr ev)
      = ⟨[v], { ev with code := KEY_RESERVED }, [], false⟩ := by
    rw [translate_loop_of_no_match tr ev htr, tap_loop_single, hr]
  have hb := main_body_of_tap_pass ⟨tr, [v], tg⟩ ev hty (by rw [ht])
  rw [hb, ht, hg]
  rfl

theorem orphan_key_up_witness :
    main_body ⟨[⟨58, 1⟩], [⟨57, 42, 0⟩], [sample_chord]⟩ (key_up 57)
      = (⟨[⟨58, 1⟩], [⟨57, 42, 0⟩], [sample_chord]⟩, [key_up 0]) :=
  (orphan_key_up ⟨57, 42, 0⟩ (key_up 57) (by decide) rfl rfl rfl).2 _ rfl rfl
    (by decide) (by decide)

/-- C12 (output ordering): for every state of the tables and every key event,
what one iteration of the main loop writes is: first what the tap rules write,
rule by rule in table order; then, if the toggle loop is reached, what the
toggle rules write, rule by rule in table order; and last the original event,
at most once, with its code possibly rewritten and its other fields as they
came. All events before the last are built by `write_key_event`. -/
theorem output_ordering (s : rules) (ev : input_event) (hty : ev.type = EV_KEY) :
    ∃ (tapS togS fwd : List input_event) (ev1 : input_event),
      (main_body s ev).2 = tapS ++ togS ++ fwd
        ∧ tapS = (tap_writes s.TAP_RULES (translate_loop s.TRANSLATE_RULES ev)).flatten
        ∧ (togS = []
            ∨ togS = (s.TOGGLE_RULES.map (fun v => (toggle_rule v ev1).out)).flatten)
        ∧ (fwd = [] ∨ fwd = [ev1])
        ∧ (∀ e ∈ tapS ++ togS, ∃ c val, e = write_key_event c val)
        ∧ ev1.sec = ev.sec ∧ ev1.usec = ev.usec ∧ ev1.type = ev.type
        ∧ ev1.value = ev.value := by
  have hf1 := translate_loop_fields s.TRANSLATE_RULES ev
  have hf2 := tap_loop_fields s.TAP_RULES (translate_loop s.TRANSLATE_RULES ev)
  have hfields : (tap_loop s.TAP_RULES (translate_loop s.TRANSLATE_RULES ev)).ev.sec = ev.sec
      ∧ (tap_loop s.TAP_RULES (translate_loop s.TRANSLATE_RULES ev)).ev.usec = ev.usec
      ∧ (tap_loop s.TAP_RULES (translate_loop s.TRANSLATE_RULES ev)).ev.type = ev.type
      ∧ (tap_loop s.TAP_RULES (translate_loop s.TRANSLATE_RULES ev)).ev.value = ev.value :=
    ⟨hf2.1.trans hf1.1, hf2.2.1.trans hf1.2.1, hf2.2.2.1.trans hf1.2.2.1,
      hf2.2.2.2.trans hf1.2.2.2⟩
  have htapS : ∀ e ∈ (tap_loop s.TAP_RULES (translate_loop s.TRANSLATE_RULES ev)).out,
      ∃ c val, e = write_key_event c val := fun e he => by
    obtain ⟨c, hc⟩ := tap_loop_out_synthetic _ _ e he
    exact ⟨c, _, hc⟩
  by_cases hs : (tap_loop s.TAP_RULES (translate_loop s.TRANSLATE_RULES ev)).skip = true
  · refine ⟨_, [], [], (tap_loop s.TAP_RULES (translate_loop s.TRANSLATE_RULES ev)).ev,
      ?_, tap_loop_out_eq_writes _ _, Or.inl rfl, Or.inl rfl, ?_, hfields⟩
    · rw [main_body_of_tap_skip s ev hty hs]
      simp
    · simpa using htapS
  · have hs2 : (tap_loop s.TAP_RULES (translate_loop s.TRANSLATE_RULES ev)).skip = false := by
      simpa using hs
    refine ⟨_, (toggle_loop s.TOGGLE_RULES
        (tap_loop s.TAP_RULES (translate_loop s.TRANSLATE_RULES ev)).ev).out,
      (if (toggle_loop s.TOGGLE_RULES
          (tap_loop s.TAP_RULES (translate_loop s.TRANSLATE_RULES ev)).ev).skip
        then [] else [(tap_loop s.TAP_RULES (translate_loop s.TRANSLATE_RULES ev)).ev]),
      (tap_loop s.TAP_RULES (translate_loop s.TRANSLATE_RULES ev)).ev,
      ?_, tap_loop_out_eq_writes _ _, Or.inr (toggle_loop_out _ _), ?_, ?_, hfields⟩
    · rw [main_body_of_tap_pass s ev hty hs2]
    · split
      · exact Or.inl rfl
      · exact Or.inr rfl
    · intro e he
      rcases List.mem_append.mp he with he | he
      · exact htapS e he
      · exact toggle_loop_out_synthetic _ _ e he

theorem output_ordering_witness :
    ∃ (tapS togS fwd : List input_event) (ev1 : input_event),
      (main_body ⟨[], [⟨57, 42, 57⟩], [sample_chord]⟩ (key_down 30)).2 = tapS ++ togS ++ fwd
        ∧ tapS = (tap_writes [⟨57, 42, 57⟩] (translate_loop [] (key_down 30))).flatten
        ∧ (togS = []
            ∨ togS = ([sample_chord].map (fun v => (toggle_rule v ev1).out)).flatten)
        ∧ (fwd = [] ∨ fwd = [ev1])
        ∧ (∀ e ∈ tapS ++ togS, ∃ c val, e = write_key_event c val)
        ∧ ev1.sec = (key_down 30).sec ∧ ev1.usec = (key_down 30).usec
        ∧ ev1.type = (key_down 30).type ∧ ev1.value = (key_down 30).value :=
  output_ordering ⟨[], [⟨57, 42, 57⟩], [sample_chord]⟩ (key_down 30) rfl

/-- C17 (suppression only hits member keys of rules that are on): if a key
event reaches the toggle loop and its code, as the tap loop left it, is not a
configured member of any toggle rule whose `is_down` is true, then the event
is written, once and last, with the code and value it had on leaving the tap
loop, after what the tap rules and the toggle rules wrote. -/
theorem forwarded_unless_member_of_on_rule (s : rules) (ev : input_event)
    (hty : ev.type = EV_KEY)
    (hreach : (tap_loop s.TAP_RULES (translate_loop s.TRANSLATE_RULES ev)).skip = false)
    (h : ∀ v ∈ s.TOGGLE_RULES, v.is_down = true →
      (tap_loop s.TAP_RULES (translate_loop s.TRANSLATE_RULES ev)).ev.code ∉ members v) :
    (toggle_loop s.TOGGLE_RULES
        (tap_loop s.TAP_RULES (translate_loop s.TRANSLATE_RULES ev)).ev).skip = false
      ∧ (main_body s ev).2
          = (tap_loop s.TAP_RULES (translate_loop s.TRANSLATE_RULES ev)).out
            ++ (toggle_loop s.TOGGLE_RULES
                (tap_loop s.TAP_RULES (translate_loop s.TRANSLATE_RULES ev)).ev).out
            ++ [(tap_loop s.TAP_RULES (translate_loop s.TRANSLATE_RULES ev)).ev] := by
  have hskip : (toggle_loop s.TOGGLE_RULES
      (tap_loop s.TAP_RULES (translate_loop s.TRANSLATE_RULES ev)).ev).skip = false := by
    rw [toggle_loop_skip]
    by_contra hc
    simp only [Bool.not_eq_false, List.any_eq_true] at hc
    obtain ⟨v, hv, hsk⟩ := hc
    rw [toggle_rule_skip] at hsk
    obtain ⟨hon, hmem⟩ := scan_keys_skip_imp v _ v.keys v.keys_down hsk
    exact h v hv hon hmem
  refine ⟨hskip, ?_⟩
  rw [main_body_of_tap_pass s ev hty hreach, hskip]
  simp

theorem forwarded_unless_member_of_on_rule_witness :
    (main_body ⟨[], [], [sample_chord_on]⟩ (key_up 71)).2 = [key_up 71] :=
  ((forwarded_unless_member_of_on_rule ⟨[], [], [sample_chord_on]⟩ (key_up 71) rfl
    (by decide) (by decide)).2).trans (by decide)

/-- C16, as stated, fails: the chord `sample_chord_on` is on (it is the state
reached from start-up by pressing keys 30 and 31) and its off-action press
code is 71, yet a key-up with code 71, which is not one of its members, is
written to the sink. -/
theorem toggle_suppression_rule_counterexample :
    (main ⟨[], [], [sample_chord]⟩ [key_down 30, key_down 31]).1.TOGGLE_RULES
        = [sample_chord_on]
      ∧ sample_chord_on.is_down = true
      ∧ (key_up 71).value = EVENT_VALUE_KEYUP
      ∧ (key_up 71).code = sample_chord_on.actions.1.1
      ∧ (main_body ⟨[], [], [sample_chord_on]⟩ (key_up 71)).2 = [key_up 71] := by
  decide

/-- C16, amended (toggle suppression rule): for every toggle rule that is on
and every key event reaching the toggle loop whose code is one of the
configured member keys of the rule, if the event is a key-up whose code is the
off-action press code (`actions[0][0]`), or a key-down or key-repeat whose code
is the on-action release code (`actions[1][1]`), then the rule sets
`skip_write` and the event is not written to the sink: only what the tap and
toggle rules write is. -/
theorem toggle_suppression_rule (s : rules) (ev : input_event) (v : toggle_rule_info)
    (hty : ev.type = EV_KEY)
    (hreach : (tap_loop s.TAP_RULES (translate_loop s.TRANSLATE_RULES ev)).skip = false)
    (hv : v ∈ s.TOGGLE_RULES) (hwf : toggle_wf v) (hon : v.is_down = true)
    (hmem : (tap_loop s.TAP_RULES (translate_loop s.TRANSLATE_RULES ev)).ev.code
      ∈ members v)
    (h : ((tap_loop s.TAP_RULES (translate_loop s.TRANSLATE_RULES ev)).ev.value
            = EVENT_VALUE_KEYUP
          ∧ (tap_loop s.TAP_RULES (translate_loop s.TRANSLATE_RULES ev)).ev.code
            = v.actions.1.1)
      ∨ (((tap_loop s.TAP_RULES (translate_loop s.TRANSLATE_RULES ev)).ev.value
              = EVENT_VALUE_KEYDOWN
            ∨ (tap_loop s.TAP_RULES (translate_loop s.TRANSLATE_RULES ev)).ev.value
              = EVENT_VALUE_KEYREPEAT)
          ∧ (tap_loop s.TAP_RULES (translate_loop s.TRANSLATE_RULES ev)).ev.code
            = v.actions.2.2)) :
    (toggle_rule v (tap_loop s.TAP_RULES (translate_loop s.TRANSLATE_RULES ev)).ev).skip
        = true
      ∧ (main_body s ev).2
          = (tap_loop s.TAP_RULES (translate_loop s.TRANSLATE_RULES ev)).out
            ++ (toggle_loop s.TOGGLE_RULES
                (tap_loop s.TAP_RULES (translate_loop s.TRANSLATE_RULES ev)).ev).out := by
  have hskip := toggle_rule_skip_of_member v _ hwf hon hmem h
  exact ⟨hskip, main_body_of_toggle_skip s ev v hty hreach hv hskip⟩

theorem toggle_suppression_rule_witness :
    (main_body ⟨[], [], [sample_lock_on]⟩ (key_repeat 30)).2 = [] :=
  ((toggle_suppression_rule ⟨[], [], [sample_lock_on]⟩ (key_repeat 30) sample_lock_on
    rfl (by decide) (by decide) (by decide) (by decide) (by decide) (by decide)).2).trans
    (by decide)

/-- C11, as stated, fails: the lock `sample_lock_on` is on (it is the state
reached from start-up by pressing key 30), its off-action press code is its
member key 30, and on the key-up of 30 nothing at all is written: neither the
raw key-up nor the pair key-down 30, key-up 71. -/
theorem self_reference_suppression_counterexample :
    (main ⟨[], [], [sample_lock]⟩ [key_down 30]).1.TOGGLE_RULES = [sample_lock_on]
      ∧ sample_lock_on.is_down = true
      ∧ sample_lock_on.actions.1 = (30, 71)
      ∧ 30 ∈ members sample_lock_on
      ∧ (main_body ⟨[], [], [sample_lock_on]⟩ (key_up 30)).2 = []
      ∧ (main_body ⟨[], [], [sample_lock_on]⟩ (key_up 30)).2
          ≠ [write_key_event 30 EVENT_VALUE_KEYDOWN, write_key_event 71 EVENT_VALUE_KEYUP] := by
  decide

/-- C11, amended (toggle self-reference suppression): for a toggle rule whose
off-action press code is one of its own member keys `M`, when the rule is on
and a key-up of `M` reaches the toggle loop, the rule sets `skip_write`, so
the raw key-up is not written to the sink, and the rule itself writes nothing
for that input: the feedback filter skips the emission of a transition whose
press code is a member key. -/
theorem self_reference_suppression (s : rules) (ev : input_event) (v : toggle_rule_info)
    (M : Int) (hty : ev.type = EV_KEY)
    (hreach : (tap_loop s.TAP_RULES (translate_loop s.TRANSLATE_RULES ev)).skip = false)
    (hv : v ∈ s.TOGGLE_RULES) (hwf : toggle_wf v) (hon : v.is_down = true)
    (hM : M ∈ members v) (hact : v.actions.1.1 = M)
    (hc : (tap_loop s.TAP_RULES (translate_loop s.TRANSLATE_RULES ev)).ev.code = M)
    (hval : (tap_loop s.TAP_RULES (translate_loop s.TRANSLATE_RULES ev)).ev.value
      = EVENT_VALUE_KEYUP) :
    (toggle_rule v (tap_loop s.TAP_RULES (translate_loop s.TRANSLATE_RULES ev)).ev).skip
        = true
      ∧ (toggle_rule v (tap_loop s.TAP_RULES (translate_loop s.TRANSLATE_RULES ev)).ev).out
        = []
      ∧ (main_body s ev).2
          = (tap_loop s.TAP_RULES (translate_loop s.TRANSLATE_RULES ev)).out
            ++ (toggle_loop s.TOGGLE_RULES
                (tap_loop s.TAP_RULES (translate_loop s.TRANSLATE_RULES ev)).ev).out := by
  have hskip := toggle_rule_skip_of_member v _ hwf hon (hc ▸ hM)
    (Or.inl ⟨hval, hc.trans hact.symm⟩)
  refine ⟨hskip, ?_, main_body_of_toggle_skip s ev v hty hreach hv hskip⟩
  by_cases hcond : v.ignore_change = false
      ∧ ndown_of (toggle_rule v
          (tap_loop s.TAP_RULES (translate_loop s.TRANSLATE_RULES ev)).ev).rule
        = effective_threshold v
  · rw [(toggle_rule_of_condition v _ hwf hcond).2.2, if_pos]
    rw [List.any_eq_true]
    exact ⟨M, hM, by simp [hon, hact]⟩
  · exact (toggle_rule_of_not_condition v _ hwf hcond).2.1

theorem self_reference_suppression_witness :
    (toggle_rule sample_lock_on (key_up 30)).skip = true
      ∧ (toggle_rule sample_lock_on (key_up 30)).out = []
      ∧ (main_body ⟨[], [], [sample_lock_on]⟩ (key_up 30)).2 = [] :=
  ⟨(self_reference_suppression ⟨[], [], [sample_lock_on]⟩ (key_up 30) sample_lock_on 30
      rfl (by decide) (by decide) (by decide) (by decide) (by decide) (by decide)
      (by decide) (by decide)).1,
    (self_reference_suppression ⟨[], [], [sample_lock_on]⟩ (key_up 30) sample_lock_on 30
      rfl (by decide) (by decide) (by decide) (by decide) (by decide) (by decide)
      (by decide) (by decide)).2.1,
    ((self_reference_suppression ⟨[], [], [sample_lock_on]⟩ (key_up 30) sample_lock_on 30
      rfl (by decide) (by decide) (by decide) (by decide) (by decide) (by decide)
      (by decide) (by decide)).2.2).trans (by decide)⟩

/-- C13, as stated, fails: `sample_bare` has no configured member; from
start-up the first key event makes it perform a transition with `ndown = 0`,
and the state reached is latched (`ignore_change` true) with no member marked
down. -/
theorem latch_invariant_counterexample :
    toggle_initial sample_bare
      ∧ (main ⟨[], [], [sample_bare]⟩ [key_down 30]).1.TOGGLE_RULES
          = [⟨[0, 0], ((0, 70), (70, 0)), 0, 0, [0, 0], true, true⟩]
      ∧ ndown_of ⟨[0, 0], ((0, 70), (70, 0)), 0, 0, [0, 0], true, true⟩ = 0
      ∧ (toggle_rule sample_bare (key_down 30)).rule.ignore_change = true
      ∧ ndown_of (toggle_rule sample_bare (key_down 30)).rule = 0 := by
  decide

/-- C13, amended (latch invariant): in every state reached by the main loop
from start-up and for every toggle rule with at least one configured member,
`ignore_change` is true only if a configured member is marked down; and after
any event that reaches such a rule and leaves `ndown = 0`, its `ignore_change`
is false. -/
theorem latch_invariant (s0 : rules) (evs : List input_event)
    (hinit : ∀ v ∈ s0.TOGGLE_RULES, toggle_initial v) :
    ∀ v ∈ (main s0 evs).1.TOGGLE_RULES, members v ≠ [] →
      (v.ignore_change = true → ndown_of v ≠ 0)
        ∧ ∀ e : input_event, ndown_of (toggle_rule v e).rule = 0 →
            (toggle_rule v e).rule.ignore_change = false := by
  intro v hv hm
  obtain ⟨es, hes⟩ := main_toggle_rules_run evs s0
  rw [hes] at hv
  obtain ⟨v0, hv0, rfl⟩ := List.mem_map.mp hv
  have hi := hinit v0 hv0
  rw [members_toggle_run] at hm
  obtain ⟨hwf, hl⟩ := toggle_run_latched es v0 hm (toggle_wf_of_initial v0 hi)
    (fun h => by rw [hi.2.2] at h; cases h)
  exact ⟨hl, fun e h0 => toggle_rule_unlatched_of_ndown_zero _ e hwf
    (by rw [members_toggle_run]; exact hm) h0⟩

theorem latch_invariant_witness :
    sample_chord_on ∈ (main chord_rules [key_down 30, key_down 31]).1.TOGGLE_RULES
      ∧ sample_chord_on.ignore_change = true
      ∧ ndown_of sample_chord_on ≠ 0 :=
  ⟨by decide, rfl,
    (latch_invariant chord_rules [key_down 30, key_down 31] (by decide) sample_chord_on
      (by decide) (by decide)).1 rfl⟩

/-- C18 (transitions are triggered only by presses): in every state reached
by the main loop from start-up, every toggle rule with at least one configured
member and pairwise distinct member keys satisfies: if it is not latched, its
down-count is strictly below the effective threshold of its current `is_down`.
So on any event that reaches it, a transition (in either direction, whatever
the thresholds) happens only if the event is a key-down or key-repeat of a
member that was not marked down, and a key-up never causes a transition. -/
theorem transitions_only_on_press (s0 : rules) (evs : List input_event)
    (hinit : ∀ v ∈ s0.TOGGLE_RULES, toggle_initial v) :
    ∀ v ∈ (main s0 evs).1.TOGGLE_RULES, members v ≠ [] → (members v).Nodup →
      (v.ignore_change = false → ndown_of v < effective_threshold v)
        ∧ ∀ e : input_event,
            ((toggle_rule v e).rule.is_down ≠ v.is_down →
                (e.value = EVENT_VALUE_KEYDOWN ∨ e.value = EVENT_VALUE_KEYREPEAT)
                  ∧ (e.code, 0) ∈ (members v).zip v.keys_down)
              ∧ (e.value = EVENT_VALUE_KEYUP →
                  (toggle_rule v e).rule.is_down = v.is_down) := by
  intro v hv hm hnd
  obtain ⟨es, hes⟩ := main_toggle_rules_run evs s0
  rw [hes] at hv
  obtain ⟨v0, hv0, rfl⟩ := List.mem_map.mp hv
  have hm0 : members v0 ≠ [] := by rw [members_toggle_run] at hm; exact hm
  have hnd0 : (members v0).Nodup := by rw [members_toggle_run] at hnd; exact hnd
  have hinv := below_threshold_toggle_run es v0 hm0 hnd0
    (below_threshold_of_initial v0 (hinit v0 hv0) hm0)
  refine ⟨hinv.2.2, fun e => ?_⟩
  have hp := (toggle_rule_press _ e hm hnd hinv).2
  refine ⟨hp, fun hup => ?_⟩
  by_contra hne
  rcases (hp hne).1 with h | h <;> rw [hup] at h <;> exact absurd h (by decide)

theorem transitions_only_on_press_witness :
    sample_chord_on ∈ (main chord_rules [key_down 30, key_down 31]).1.TOGGLE_RULES
      ∧ (toggle_rule sample_chord_on (key_up 30)).rule.is_down = sample_chord_on.is_down :=
  ⟨by decide,
    ((transitions_only_on_press chord_rules [key_down 30, key_down 31] (by decide)
      sample_chord_on (by decide) (by decide) (by decide)).2 (key_up 30)).2 rfl⟩

/-- C14, as stated, fails: in the table of two tap rules on keys 57 and 58,
after a key-down of 58 (a state reached from start-up) the second rule is
waiting; a key-down of 57 is claimed by the first rule, which jumps to
`skip_write`, so the second rule keeps `act_key = 58` and writes nothing,
while as the only tap rule it would be promoted to its hold key 29 and write
the key-down of 29. -/
theorem tap_rules_independent_counterexample :
    (main ⟨[], [⟨57, 42, 0⟩, ⟨58, 29, 0⟩], []⟩ [key_down 58]).1.TAP_RULES
        = [⟨57, 42, 0⟩, ⟨58, 29, 58⟩]
      ∧ (tap_loop [⟨57, 42, 0⟩, ⟨58, 29, 58⟩] (key_down 57)).rules
          = [⟨57, 42, 57⟩, ⟨58, 29, 58⟩]
      ∧ (tap_loop [⟨57, 42, 0⟩, ⟨58, 29, 58⟩] (key_down 57)).out = []
      ∧ (tap_loop [⟨58, 29, 58⟩] (key_down 57)).rules = [⟨58, 29, 29⟩]
      ∧ (tap_loop [⟨58, 29, 58⟩] (key_down 57)).out
          = [write_key_event 29 EVENT_VALUE_KEYDOWN] := by
  decide

/-- C14, amended (tap rules, one by one): for every tap table `pre ++ v :: post`
in any state and every event, if no rule of `pre` jumps to `skip_write`, the
rule `v` ends as, and writes what, it would as the only tap rule on the event
as the rules of `pre` left it; if a rule of `pre` jumps, `v` and the rules
after it are left as they were and write nothing. An event whose code is the
tap key of no rule of `pre` reaches `v` as it entered the tap loop. -/
theorem tap_rules_independent (pre post : List tap_rule_info) (v : tap_rule_info)
    (ev : input_event) :
    ((tap_loop pre ev).skip = false →
        ∃ (rest : List tap_rule_info) (ws : List (List input_event)),
          rest.length = post.length
            ∧ (tap_loop (pre ++ v :: post) ev).rules
                = (tap_loop pre ev).rules ++ (tap_loop [v] (tap_loop pre ev).ev).rules ++ rest
            ∧ tap_writes (pre ++ v :: post) ev
                = tap_writes pre ev ++ (tap_loop [v] (tap_loop pre ev).ev).out :: ws
            ∧ (tap_writes pre ev).length = pre.length)
      ∧ ((tap_loop pre ev).skip = true →
          (tap_loop (pre ++ v :: post) ev).rules = (tap_loop pre ev).rules ++ v :: post
            ∧ tap_writes (pre ++ v :: post) ev = tap_writes pre ev
            ∧ (tap_writes pre ev).length ≤ pre.length)
      ∧ (tap_loop pre ev).rules.length = pre.length
      ∧ ((∀ w ∈ pre, w.tap_key ≠ ev.code) →
          (tap_loop pre ev).skip = false ∧ (tap_loop pre ev).ev = ev) := by
  refine ⟨fun h => ?_, fun h => ?_, tap_loop_rules_length pre ev,
    tap_loop_of_no_tap_key pre ev⟩
  · rw [tap_loop_append, tap_writes_append, h, tap_loop_single]
    simp only [if_false, Bool.false_eq_true]
    rw [tap_loop_cons]
    by_cases hs : (tap_rule v (tap_loop pre ev).ev).skip = true
    · exact ⟨post, [], rfl, by simp [hs], by simp [tap_writes, hs],
        tap_writes_length_of_pass pre ev h⟩
    · exact ⟨(tap_loop post (tap_rule v (tap_loop pre ev).ev).ev).rules,
        tap_writes post (tap_rule v (tap_loop pre ev).ev).ev,
        tap_loop_rules_length _ _, by simp [hs], by simp [tap_writes, hs],
        tap_writes_length_of_pass pre ev h⟩
  · rw [tap_loop_append, tap_writes_append, h]
    exact ⟨rfl, rfl, tap_writes_length_le pre ev⟩

theorem tap_rules_independent_witness :
    (tap_loop [⟨57, 42, 0⟩, ⟨58, 29, 58⟩] (key_down 57)).rules
        = [⟨57, 42, 57⟩, ⟨58, 29, 58⟩]
      ∧ tap_writes [⟨57, 42, 0⟩, ⟨58, 29, 58⟩] (key_down 57) = [[]] :=
  ⟨((tap_rules_independent [⟨57, 42, 0⟩] [] ⟨58, 29, 58⟩ (key_down 57)).2.1
      (by decide)).1.trans (by decide),
    ((tap_rules_independent [⟨57, 42, 0⟩] [] ⟨58, 29, 58⟩ (key_down 57)).2.1
      (by decide)).2.1.trans (by decide)⟩

end K2K
